import Mathlib

/-!
# A chained hash table with string keys (`src/hashmap/hashmap.go`)

Shallow embedding of the Go package `hashmap` and proofs about it.

Conventions of the embedding

* A Go slice is a `List`; a `nil` slice and an empty slice are both `[]`.
* A method that mutates its receiver returns the new table.
* A run-time panic (integer division by zero, index out of range, `make` with a
  negative length) is the outer `none`; a Go result `(T, error)` is an
  `Except String T`, a lone `error` an `Except String Unit`.
* Go `int` values are unbounded `Int`s: `size` is the length of a slice that is
  held in memory and `elementCount` counts entries held in memory, so neither
  `size * 2` nor `elementCount + 1` can leave the 64-bit range.
* `maphash` is a parameter `sum64 : Nat → String → Nat` (seed, key ↦ `Sum64`),
  read modulo `2 ^ 64`; the seed drawn by `maphash.MakeSeed()` is an argument
  of the constructor.
* `float64` arithmetic is modelled exactly (round to nearest, ties to even, 53
  significant bits) by integer arithmetic, see `F64`.
-/

namespace hashmap

/-! ## binary64 arithmetic -/

/-- A `float64`: not a number, an infinity, or the finite number
`sig * 2 ^ exp`. The sign of a zero is not tracked (it plays no part in `>=`,
and every divisor of the program is converted from an `int`, whose zero is
`+0`). The exponent range is not modelled: the operands of the program are
64-bit integers and their quotients, far from overflow and underflow. -/
inductive F64 where
  | nan : F64
  | inf (neg : Bool) : F64
  | fin (sig : Int) (exp : Int) : F64
deriving DecidableEq

/-- Number of binary digits of `n` (`fuel` bounds the recursion; `n` itself is
always enough). -/
def bitLen : Nat → Nat → Nat
  | 0, _ => 0
  | fuel + 1, n => if n = 0 then 0 else bitLen fuel (n / 2) + 1

/-- The integer nearest to `n / d`, a tie going to the even neighbour. -/
def rne (n d : Nat) : Nat :=
  if 2 * (n % d) < d then n / d
  else if d < 2 * (n % d) then n / d + 1
  else if (n / d) % 2 = 0 then n / d else n / d + 1

/-- The exponent `x` of the binary64 nearest to the positive rational `n / d`:
the integer with `2 ^ 52 ≤ (n / d) / 2 ^ x < 2 ^ 53`. With `l` the difference
of the bit lengths, `⌊log₂ (n / d)⌋` is `l` or `l - 1`. -/
def roundExp (n d : Nat) : Int :=
  let l : Int := (bitLen n n : Int) - (bitLen d d : Int)
  if d * 2 ^ l.toNat ≤ n * 2 ^ (-l).toNat then l - 52 else l - 1 - 52

/-- Rounding of the rational `n / d` (`d > 0`) to binary64. -/
def F64.ofRatio (n : Int) (d : Nat) : F64 :=
  if n = 0 then .fin 0 0
  else
    let x := roundExp n.natAbs d
    let m : Int := rne (n.natAbs * 2 ^ (-x).toNat) (d * 2 ^ x.toNat)
    .fin (if n < 0 then -m else m) x

/-- The conversion `float64(i)` of an `int`. -/
def F64.ofInt (i : Int) : F64 := F64.ofRatio i 1

/-- The quotient `a / b` of two `float64`. -/
def F64.div : F64 → F64 → F64
  | .nan, _ => .nan
  | _, .nan => .nan
  | .inf _, .inf _ => .nan
  | .inf neg, .fin sig _ => .inf (neg != decide (sig < 0))
  | .fin _ _, .inf _ => .fin 0 0
  | .fin s₁ x₁, .fin s₂ x₂ =>
    if s₂ = 0 then (if s₁ = 0 then .nan else .inf (decide (s₁ < 0)))
    else F64.ofRatio ((if s₂ < 0 then -s₁ else s₁) * 2 ^ (x₁ - x₂).toNat)
      (s₂.natAbs * 2 ^ (x₂ - x₁).toNat)

/-- The comparison `a >= b` of two `float64`. -/
def F64.ge : F64 → F64 → Bool
  | .nan, _ => false
  | _, .nan => false
  | .inf false, _ => true
  | .inf true, b => decide (b = .inf true)
  | .fin _ _, .inf neg => neg
  | .fin s₁ x₁, .fin s₂ x₂ =>
    decide (s₂ * 2 ^ (x₂ - x₁).toNat ≤ s₁ * 2 ^ (x₁ - x₂).toNat)

/-- The constant `0.7` as a `float64`. -/
def F64.c0_7 : F64 := F64.ofRatio 7 10

/-! ## The table -/

/-- KeyValue struct holds the key-value pair. -/
structure KeyValue (T : Type) where
  Key : String
  Value : T
deriving DecidableEq

/-- HashMap struct represents a hash map. -/
structure HashMap (T : Type) where
  buckets : List (List (KeyValue T))
  size : Int
  threshold : F64
  seed : Nat
  elementCount : Int
deriving DecidableEq

/-- The conversion `uint64(i)` of an `int`: the identity on the non-negative
`int`s. (Go wraps a negative `i` to `2 ^ 64 + i`; `make` rejects a negative
size before a table exists, and here a negative size is sent to `0`.) -/
def uint64 (i : Int) : Nat := i.toNat

section
variable {T : Type} (sum64 : Nat → String → Nat)

/-- NewHashMap creates a new HashMap with the specified initial size; `seed` is
the value returned by `maphash.MakeSeed()`. `make` panics on a negative size. -/
def NewHashMap (seed : Nat) (size : Int) : Option (HashMap T) :=
  if size < 0 then none
  else some
    { buckets := List.replicate size.toNat []
      size := size
      seed := seed
      threshold := F64.c0_7
      elementCount := 0 }

/-- The expression `h.Sum64() % uint64(size)` of `hash` and `resize`; the
remainder panics on a zero divisor. -/
def bucketIndex (seed : Nat) (size : Int) (key : String) : Option Nat :=
  if uint64 size = 0 then none else some (sum64 seed key % 2 ^ 64 % uint64 size)

/-- The method `hash`: generates a hash of the key. -/
def HashMap.hash (hm : HashMap T) (key : String) : Option Nat :=
  bucketIndex sum64 hm.seed hm.size key

/-- The inner loop of `resize`: appends each entry of `bucket` to its bucket of
`newBuckets`. -/
def rehashBucket (seed : Nat) (newSize : Int) :
    List (KeyValue T) → List (List (KeyValue T)) → Option (List (List (KeyValue T)))
  | [], newBuckets => some newBuckets
  | kv :: rest, newBuckets => do
    let hashValue ← bucketIndex sum64 seed newSize kv.Key
    let b ← newBuckets[hashValue]?
    rehashBucket seed newSize rest (newBuckets.set hashValue (b ++ [kv]))

/-- The outer loop of `resize`. -/
def rehashAll (seed : Nat) (newSize : Int) :
    List (List (KeyValue T)) → List (List (KeyValue T)) → Option (List (List (KeyValue T)))
  | [], newBuckets => some newBuckets
  | bucket :: rest, newBuckets => do
    let newBuckets ← rehashBucket sum64 seed newSize bucket newBuckets
    rehashAll seed newSize rest newBuckets

/-- The method `resize`: doubles the size of the bucket array and rehashes all
elements. -/
def HashMap.resize (hm : HashMap T) : Option (HashMap T) :=
  let newSize := hm.size * 2
  if newSize < 0 then none
  else do
    let newBuckets ← rehashAll sum64 hm.seed newSize hm.buckets (List.replicate newSize.toNat [])
    some { hm with size := newSize, buckets := newBuckets }

/-- The test `float64(hm.elementCount) / float64(hm.size) >= hm.threshold`. -/
def HashMap.loadFactorReached (hm : HashMap T) : Bool :=
  F64.ge (F64.div (F64.ofInt hm.elementCount) (F64.ofInt hm.size)) hm.threshold

/-- The update loop of `Set`: overwrites the value of the first entry whose key
is `key`; `none` when the loop ends without a match. -/
def setValue (key : String) (value : T) : List (KeyValue T) → Option (List (KeyValue T))
  | [] => none
  | kv :: rest =>
    if kv.Key = key then some ({ kv with Value := value } :: rest)
    else (setValue key value rest).map (kv :: ·)

/-- The method `Set`: inserts a key-value pair into the map, resizing first when
the load factor test holds. -/
def HashMap.Set (hm : HashMap T) (key : String) (value : T) : Option (HashMap T) := do
  let hm ← (if hm.loadFactorReached then hm.resize sum64 else some hm)
  let index ← hm.hash sum64 key
  let bucket ← hm.buckets[index]?
  match setValue key value bucket with
  | some bucket' => some { hm with buckets := hm.buckets.set index bucket' }
  | none =>
    some { hm with
      buckets := hm.buckets.set index (bucket ++ [{ Key := key, Value := value }])
      elementCount := hm.elementCount + 1 }

/-- The method `Get`: retrieves a value by key from the map. -/
def HashMap.Get (hm : HashMap T) (key : String) : Option (Except String T) := do
  let index ← hm.hash sum64 key
  let bucket ← hm.buckets[index]?
  match bucket.find? (fun kv => decide (key = kv.Key)) with
  | some kv => some (.ok kv.Value)
  | none => some (.error ("key not found: " ++ key))

/-- The update loop of `Put`: as `setValue`, also giving the value that was
overwritten. -/
def putValue (key : String) (value : T) : List (KeyValue T) → Option (T × List (KeyValue T))
  | [] => none
  | kv :: rest =>
    if key = kv.Key then some (kv.Value, { kv with Value := value } :: rest)
    else (putValue key value rest).map (fun r => (r.1, kv :: r.2))

/-- The method `Put`: similar to `Set`, but it returns the old value if it
exists. -/
def HashMap.Put (hm : HashMap T) (key : String) (value : T) :
    Option (HashMap T × Except String T) := do
  let index ← hm.hash sum64 key
  let bucket ← hm.buckets[index]?
  match putValue key value bucket with
  | some (oldValue, bucket') =>
    some ({ hm with buckets := hm.buckets.set index bucket' }, .ok oldValue)
  | none =>
    some ({ hm with
      buckets := hm.buckets.set index (bucket ++ [{ Key := key, Value := value }])
      elementCount := hm.elementCount + 1 }, .ok value)

/-- The loop of `Delete`: the bucket without its first entry whose key is `key`
(`append(bucket[:i], bucket[i+1:]...)`); `none` when there is no such entry. -/
def deleteEntry (key : String) : List (KeyValue T) → Option (List (KeyValue T))
  | [] => none
  | kv :: rest =>
    if key = kv.Key then some rest
    else (deleteEntry key rest).map (kv :: ·)

/-- The method `Delete`: removes a key-value pair from the map. -/
def HashMap.Delete (hm : HashMap T) (key : String) :
    Option (HashMap T × Except String Unit) := do
  let index ← hm.hash sum64 key
  let bucket ← hm.buckets[index]?
  match deleteEntry key bucket with
  | some bucket' =>
    some ({ hm with
      buckets := hm.buckets.set index bucket'
      elementCount := hm.elementCount - 1 }, .ok ())
  | none => some (hm, .error ("key not found: " ++ key))

/-- The method `Keys`: a list of all the keys in the map. -/
def HashMap.Keys (hm : HashMap T) : List String :=
  hm.buckets.foldl (fun keys bucket => bucket.foldl (fun keys kv => keys ++ [kv.Key]) keys) []

/-- The method `Values`: a list of all the values in the map. -/
def HashMap.Values (hm : HashMap T) : List T :=
  hm.buckets.foldl (fun values bucket => bucket.foldl (fun values kv => values ++ [kv.Value]) values) []

/-- The method `Len`: the number of elements in the map. -/
def HashMap.Len (hm : HashMap T) : Int := hm.elementCount

/-- The method `IsEmpty`: true if the map has no elements. -/
def HashMap.IsEmpty (hm : HashMap T) : Bool := decide (hm.Len = 0)

/-- The method `Clear`: removes all key-value pairs from the map. -/
def HashMap.Clear (hm : HashMap T) : HashMap T :=
  { hm with buckets := hm.buckets.map (fun _ => []), elementCount := 0 }

/-- The inner loop of `Clone`. -/
def cloneBucket : List (KeyValue T) → HashMap T → Option (HashMap T)
  | [], clone => some clone
  | kv :: rest, clone => do
    let clone ← clone.Set sum64 kv.Key kv.Value
    cloneBucket rest clone

/-- The outer loop of `Clone`. -/
def cloneAll : List (List (KeyValue T)) → HashMap T → Option (HashMap T)
  | [], clone => some clone
  | bucket :: rest, clone => do
    let clone ← cloneBucket sum64 bucket clone
    cloneAll rest clone

/-- The method `Clone`: a new map with the same elements as the current one;
`seed` is the seed drawn for the new map. -/
def HashMap.Clone (hm : HashMap T) (seed : Nat) : Option (HashMap T) := do
  let clone ← NewHashMap seed hm.size
  cloneAll sum64 hm.buckets clone

/-- The method `ContainsKey`: checks if a key exists in the map. -/
def HashMap.ContainsKey (hm : HashMap T) (key : String) : Option Bool := do
  let index ← hm.hash sum64 key
  let bucket ← hm.buckets[index]?
  some (bucket.any (fun kv => decide (key = kv.Key)))

/-- The method `ContainsValue`: checks if a value exists in the map. -/
def HashMap.ContainsValue [DecidableEq T] (hm : HashMap T) (value : T) : Bool :=
  hm.buckets.any (fun bucket => bucket.any (fun kv => decide (kv.Value = value)))

/-- The statements of `Set` that follow the resize check (source lines 49-62):
update the entry of `key` in its bucket, or append a new entry and count it.
`Put` runs the same statements on the table it is given. -/
def HashMap.store (hm : HashMap T) (key : String) (value : T) : Option (HashMap T) := do
  let index ← hm.hash sum64 key
  let bucket ← hm.buckets[index]?
  match setValue key value bucket with
  | some bucket' => some { hm with buckets := hm.buckets.set index bucket' }
  | none =>
    some { hm with
      buckets := hm.buckets.set index (bucket ++ [{ Key := key, Value := value }])
      elementCount := hm.elementCount + 1 }

/-! ## The representation invariant -/

/-- All entries of the table, by ascending bucket index and in bucket order. -/
def HashMap.entries (hm : HashMap T) : List (KeyValue T) := hm.buckets.flatten

/-- An entry with key `key` is stored in the table. -/
def HashMap.Stored (hm : HashMap T) (key : String) : Prop :=
  key ∈ hm.entries.map (·.Key)

/-- Every stored entry lies in the bucket with index `hash(key) mod capacity`. -/
def HashMap.Placed (hm : HashMap T) : Prop :=
  ∀ i (h : i < hm.buckets.length), ∀ kv ∈ hm.buckets[i], hm.hash sum64 kv.Key = some i

/-- The well-formed tables: the capacity is at least 1, the bucket array has
exactly `capacity` buckets, every entry lies in the bucket of its key, and no
key is stored twice. -/
def HashMap.WF (hm : HashMap T) : Prop :=
  1 ≤ hm.size ∧ (hm.buckets.length : Int) = hm.size ∧ hm.Placed sum64 ∧
    (hm.entries.map (·.Key)).Nodup

/-- The representation invariant: a well-formed table whose `elementCount` is
the total number of entries summed over all buckets. -/
def HashMap.Inv (hm : HashMap T) : Prop :=
  hm.WF sum64 ∧ hm.elementCount = (hm.buckets.map List.length).sum

instance (hm : HashMap T) (key : String) : Decidable (hm.Stored key) := by
  unfold HashMap.Stored; infer_instance

instance [DecidableEq T] (hm : HashMap T) : Decidable (hm.Placed sum64) := by
  unfold HashMap.Placed; infer_instance

instance [DecidableEq T] (hm : HashMap T) : Decidable (hm.WF sum64) := by
  unfold HashMap.WF; infer_instance

instance [DecidableEq T] (hm : HashMap T) : Decidable (hm.Inv sum64) := by
  unfold HashMap.Inv; infer_instance

/-! ## Sequences of calls, reachable tables -/

/-- A finite sequence of `Set` calls, one for each key/value pair, in order. -/
def setAll : HashMap T → List (String × T) → Option (HashMap T)
  | hm, [] => some hm
  | hm, (key, value) :: rest => do
    let hm ← hm.Set sum64 key value
    setAll hm rest

/-- The tables that the public operations produce, starting from
`NewHashMap(c)` with `c ≥ 1`. -/
inductive Reachable : HashMap T → Prop
  | new (seed : Nat) (c : Int) (hm : HashMap T) :
      1 ≤ c → NewHashMap seed c = some hm → Reachable hm
  | set (hm : HashMap T) (key : String) (value : T) (hm' : HashMap T) :
      Reachable hm → hm.Set sum64 key value = some hm' → Reachable hm'
  | put (hm : HashMap T) (key : String) (value : T) (hm' : HashMap T) (r : Except String T) :
      Reachable hm → hm.Put sum64 key value = some (hm', r) → Reachable hm'
  | delete (hm : HashMap T) (key : String) (hm' : HashMap T) (r : Except String Unit) :
      Reachable hm → hm.Delete sum64 key = some (hm', r) → Reachable hm'
  | clear (hm : HashMap T) : Reachable hm → Reachable hm.Clear
  | clone (hm : HashMap T) (seed : Nat) (hm' : HashMap T) :
      Reachable hm → hm.Clone sum64 seed = some hm' → Reachable hm'

/-- The tables that `Set`, `Delete` and `Clear` produce, starting from
`NewHashMap(c)` with `c ≥ 1`: the reachable tables on which `Put` was never
called. -/
inductive ReachableNoPut : HashMap T → Prop
  | new (seed : Nat) (c : Int) (hm : HashMap T) :
      1 ≤ c → NewHashMap seed c = some hm → ReachableNoPut hm
  | set (hm : HashMap T) (key : String) (value : T) (hm' : HashMap T) :
      ReachableNoPut hm → hm.Set sum64 key value = some hm' → ReachableNoPut hm'
  | delete (hm : HashMap T) (key : String) (hm' : HashMap T) (r : Except String Unit) :
      ReachableNoPut hm → hm.Delete sum64 key = some (hm', r) → ReachableNoPut hm'
  | clear (hm : HashMap T) : ReachableNoPut hm → ReachableNoPut hm.Clear

end

/-- The tables whose bucket array has as many buckets as the capacity, the
capacity being at least 1. -/
def HashMap.Shaped {T : Type} (hm : HashMap T) : Prop :=
  1 ≤ hm.size ∧ (hm.buckets.length : Int) = hm.size

instance {T : Type} (hm : HashMap T) : Decidable hm.Shaped := by
  unfold HashMap.Shaped; infer_instance

/-! ## Example data -/

/-- A hash function for the examples: the length of the key. -/
def exampleSum64 : Nat → String → Nat := fun _ key => key.length

/-- The table `NewHashMap(1)` after `Set("a", 1)`: one bucket, one entry. -/
def fullTable : HashMap Nat :=
  { buckets := [[{ Key := "a", Value := 1 }]]
    size := 1
    threshold := F64.c0_7
    seed := 0
    elementCount := 1 }

/-- A table of four buckets holding the keys `"a"` and `"bb"`. -/
def sparseTable : HashMap Nat :=
  { buckets := [[], [{ Key := "a", Value := 1 }], [{ Key := "bb", Value := 2 }], []]
    size := 4
    threshold := F64.c0_7
    seed := 0
    elementCount := 2 }

/-- A table with two buckets that is not well formed: the key `"a"` is stored
twice, in a bucket that is not the one of its hash, and `elementCount` is not
the number of entries. -/
def misplacedTable : HashMap Nat :=
  { buckets := [[{ Key := "a", Value := 1 }, { Key := "a", Value := 2 }], []]
    size := 2
    threshold := F64.c0_7
    seed := 0
    elementCount := 7 }

/-- The table `NewHashMap(1)` after `Put("a", 1)`, `Put("b", 2)`, `Put("c", 3)`:
three entries in the only bucket. -/
def crowdedTable : HashMap Nat :=
  { buckets := [[{ Key := "a", Value := 1 }, { Key := "b", Value := 2 }, { Key := "c", Value := 3 }]]
    size := 1
    threshold := F64.c0_7
    seed := 0
    elementCount := 3 }

/-! ## binary64: the rounding -/

section rounding

theorem bitLen_spec (fuel n : Nat) (h : n ≤ fuel) :
    n < 2 ^ bitLen fuel n ∧ (n ≠ 0 → 2 ^ bitLen fuel n ≤ 2 * n) := by
  induction fuel generalizing n with
  | zero =>
    have : n = 0 := by omega
    subst this
    simp [bitLen]
  | succ fuel ih =>
    by_cases h0 : n = 0
    · subst h0
      simp [bitLen]
    · have hle : n / 2 ≤ fuel := by omega
      obtain ⟨h1, h2⟩ := ih (n / 2) hle
      simp only [bitLen, h0, if_false, Nat.pow_succ]
      refine ⟨by omega, fun _ => ?_⟩
      by_cases h00 : n / 2 = 0
      · have hb : bitLen fuel (n / 2) = 0 := by
          rw [h00]
          cases fuel <;> simp [bitLen]
        rw [hb]
        omega
      · have := h2 h00
        omega

theorem rne_one (n : Nat) : rne n 1 = n := by
  simp [rne, Nat.mod_one]

theorem rne_le (n d : Nat) : rne n d ≤ n / d + 1 := by
  unfold rne
  split
  · omega
  · split
    · omega
    · split <;> omega

theorem le_rne (n d : Nat) : n / d ≤ rne n d := by
  unfold rne
  split
  · omega
  · split
    · omega
    · split <;> omega

/-- The threshold of rounding to an even integer `k`: the nearest integer to
`n / d` is at least `k` exactly when `n / d ≥ k - 1/2`. -/
theorem le_rne_iff {n d k : Nat} (hd : 0 < d) (hk : k % 2 = 0) (hk0 : 0 < k) :
    k ≤ rne n d ↔ (2 * k - 1) * d ≤ 2 * n := by
  have hdiv : d * (n / d) + n % d = n := Nat.div_add_mod n d
  have hmod : n % d < d := Nat.mod_lt n hd
  generalize n / d = q at hdiv
  generalize n % d = r at hdiv hmod
  subst hdiv
  have hexp : (2 * k - 1) * d + d = 2 * k * d := by
    have : 2 * k - 1 + 1 = 2 * k := by omega
    calc (2 * k - 1) * d + d = (2 * k - 1 + 1) * d := by ring
      _ = 2 * k * d := by rw [this]
  rcases Nat.lt_trichotomy (q + 1) k with hlt | heq | hgt
  · -- q ≤ k - 2
    have h1 : rne (d * q + r) d ≤ q + 1 := by
      have := rne_le (d * q + r) d
      have hq : (d * q + r) / d = q := by
        rw [Nat.mul_add_div hd, Nat.div_eq_of_lt hmod]; rfl
      omega
    have h2 : d * (q + 2) ≤ d * k := Nat.mul_le_mul_left d (by omega)
    constructor
    · intro h; omega
    · intro h
      exfalso
      have : 2 * k * d = 2 * (d * k) := by ring
      have : d * (q + 2) = d * q + 2 * d := by ring
      omega
  · -- q = k - 1
    subst heq
    have hq : (d * q + r) / d = q := by
      rw [Nat.mul_add_div hd, Nat.div_eq_of_lt hmod]; rfl
    have hr : (d * q + r) % d = r := by
      rw [Nat.mul_add_mod, Nat.mod_eq_of_lt hmod]
    have hodd : q % 2 ≠ 0 := by omega
    have e1 : 2 * (q + 1) * d = 2 * (d * q) + 2 * d := by ring
    unfold rne
    rw [hq, hr]
    split_ifs <;> constructor <;> intro _ <;> omega
  · -- q ≥ k
    have h1 : q ≤ rne (d * q + r) d := by
      have := le_rne (d * q + r) d
      have hq : (d * q + r) / d = q := by
        rw [Nat.mul_add_div hd, Nat.div_eq_of_lt hmod]; rfl
      omega
    have h2 : d * k ≤ d * q := Nat.mul_le_mul_left d (by omega)
    constructor
    · intro _
      have : 2 * k * d = 2 * (d * k) := by ring
      omega
    · intro _; omega

end rounding

section exponent

/-- Comparing against a power of two with an integer exponent `z = a - b`,
written with the two natural exponents `z.toNat` and `(-z).toNat`. -/
theorem mul_pow_toNat_le_iff (u v : Nat) (z : Int) (a b : Nat) (hz : z = (a : Int) - b) :
    u * 2 ^ z.toNat ≤ v * 2 ^ (-z).toNat ↔ u * 2 ^ a ≤ v * 2 ^ b := by
  rcases Nat.le_total b a with hab | hab
  · obtain ⟨j, rfl⟩ := Nat.exists_eq_add_of_le hab
    have h1 : z.toNat = j := by omega
    have h2 : (-z).toNat = 0 := by omega
    rw [h1, h2, Nat.pow_zero, Nat.mul_one, Nat.pow_add, ← Nat.mul_assoc,
      Nat.mul_comm (u * 2 ^ b) (2 ^ j), Nat.mul_comm u (2 ^ b), Nat.mul_comm v (2 ^ b)]
    rw [show 2 ^ j * (2 ^ b * u) = 2 ^ b * (u * 2 ^ j) by ring]
    exact (mul_le_mul_left (Nat.pow_pos (by decide))).symm
  · obtain ⟨j, rfl⟩ := Nat.exists_eq_add_of_le hab
    have h1 : z.toNat = 0 := by omega
    have h2 : (-z).toNat = j := by omega
    rw [h1, h2, Nat.pow_zero, Nat.mul_one, Nat.pow_add]
    rw [show v * (2 ^ a * 2 ^ j) = 2 ^ a * (v * 2 ^ j) by ring, Nat.mul_comm u (2 ^ a)]
    exact (mul_le_mul_left (Nat.pow_pos (by decide))).symm

theorem roundExp_spec {n d : Nat} (hn : 0 < n) (hd : 0 < d) :
    2 ^ 52 * d * 2 ^ (roundExp n d).toNat ≤ n * 2 ^ (-(roundExp n d)).toNat ∧
      n * 2 ^ (-(roundExp n d)).toNat < 2 ^ 53 * d * 2 ^ (roundExp n d).toNat := by
  obtain ⟨hn1, hn2⟩ := bitLen_spec n n (Nat.le_refl n)
  obtain ⟨hd1, hd2⟩ := bitLen_spec d d (Nat.le_refl d)
  have hn2 := hn2 (by omega)
  have hd2 := hd2 (by omega)
  generalize hbn : bitLen n n = bn at hn1 hn2
  generalize hbd : bitLen d d = bd at hd1 hd2
  generalize hA : 2 ^ bn = A at hn1 hn2
  generalize hB : 2 ^ bd = B at hd1 hd2
  have hlow : d * A ≤ 2 * (n * B) := by nlinarith
  have hupp : n * B < 2 * (d * A) := by nlinarith
  have htest : d * 2 ^ ((bn : Int) - bd).toNat ≤ n * 2 ^ (-((bn : Int) - bd)).toNat ↔
      d * A ≤ n * B := by
    rw [mul_pow_toNat_le_iff d n _ bn bd rfl, hA, hB]
  unfold roundExp
  simp only [hbn, hbd]
  split
  · rename_i ht
    rw [htest] at ht
    have e1 := mul_pow_toNat_le_iff (2 ^ 52 * d) n ((bn : Int) - bd - 52) bn (bd + 52)
      (by push_cast; ring)
    have e2 := mul_pow_toNat_le_iff (2 ^ 53 * d) n ((bn : Int) - bd - 52) bn (bd + 52)
      (by push_cast; ring)
    rw [Nat.pow_add, hA, hB] at e1 e2
    constructor
    · rw [e1]
      nlinarith
    · rw [← Nat.not_le, e2]
      nlinarith
  · rename_i ht
    rw [htest] at ht
    have e1 := mul_pow_toNat_le_iff (2 ^ 52 * d) n ((bn : Int) - bd - 1 - 52) bn (bd + 53)
      (by push_cast; ring)
    have e2 := mul_pow_toNat_le_iff (2 ^ 53 * d) n ((bn : Int) - bd - 1 - 52) bn (bd + 53)
      (by push_cast; ring)
    rw [Nat.pow_add, hA, hB] at e1 e2
    constructor
    · rw [e1]
      nlinarith
    · rw [← Nat.not_le, e2]
      nlinarith

end exponent

section threshold

theorem F64.c0_7_eq : F64.c0_7 = .fin 6305039478318694 (-53) := by decide

theorem cast_mul_pow_le_iff (b k j : Nat) :
    (6305039478318694 : Int) * 2 ^ k ≤ (b : Int) * 2 ^ j ↔
      6305039478318694 * 2 ^ k ≤ b * 2 ^ j := by
  exact_mod_cast Iff.rfl

/-- The rounded quotient `n / d` reaches the `float64` constant `0.7` exactly
when `n / d` reaches the midpoint between that constant and the `float64` just
below it, `12610078956637387 / 2 ^ 54`. -/
theorem ofRatio_ge_c0_7 {n d : Nat} (hn : 0 < n) (hd : 0 < d) :
    F64.ge (F64.ofRatio (n : Int) d) (.fin 6305039478318694 (-53)) = true ↔
      12610078956637387 * d ≤ 2 ^ 54 * n := by
  have hne : (n : Int) ≠ 0 := by omega
  have hpos : ¬ (n : Int) < 0 := by omega
  obtain ⟨s1, s2⟩ := roundExp_spec hn hd
  simp only [F64.ofRatio, hne, if_false, hpos, Int.natAbs_ofNat, F64.ge, decide_eq_true_eq]
  generalize roundExp n d = x at s1 s2
  rw [cast_mul_pow_le_iff]
  rcases lt_trichotomy x (-53) with hx | hx | hx
  · -- the quotient is below 1/2
    have h1 : x.toNat = 0 := by omega
    obtain ⟨j, hj⟩ : ∃ j : Nat, (-x).toNat = 54 + j := ⟨(-x).toNat - 54, by omega⟩
    have h3 : (-53 - x).toNat = 1 + j := by omega
    have h4 : (x - -53).toNat = 0 := by omega
    rw [h1, hj] at s2 ⊢
    rw [h3, h4]
    simp only [Nat.pow_zero, Nat.mul_one, Nat.pow_add, Nat.pow_one] at s2 ⊢
    have hP : 0 < 2 ^ j := Nat.pow_pos (by decide)
    generalize 2 ^ j = P at s2 hP ⊢
    have hm := rne_le (n * (2 ^ 54 * P)) d
    have hq : n * (2 ^ 54 * P) / d < 2 ^ 53 := (Nat.div_lt_iff_lt_mul hd).2 s2
    generalize rne (n * (2 ^ 54 * P)) d = m at hm ⊢
    have hnP : n ≤ n * P := Nat.le_mul_of_pos_right n hP
    have e1 : n * (2 ^ 54 * P) = 2 ^ 54 * (n * P) := by ring
    rw [e1] at s2
    constructor
    · intro h
      exfalso
      omega
    · intro h
      exfalso
      omega
  · -- the quotient is in [1/2, 1)
    subst hx
    have h1 : ((-53 : Int)).toNat = 0 := by decide
    have h2 : (-(-53 : Int)).toNat = 53 := by decide
    have h3 : ((-53 : Int) - -53).toNat = 0 := by decide
    rw [h1, h2, h3]
    simp only [Nat.pow_zero, Nat.mul_one]
    rw [le_rne_iff hd (by decide) (by decide)]
    omega
  · -- the quotient is at least 1
    obtain ⟨j, hj⟩ : ∃ j : Nat, (x - -53).toNat = 1 + j := ⟨(x - -53).toNat - 1, by omega⟩
    have h3 : (-53 - x).toNat = 0 := by omega
    rw [h3, hj]
    have hP : 0 < 2 ^ j := Nat.pow_pos (by decide)
    have hQ : 0 < 2 ^ x.toNat := Nat.pow_pos (by decide)
    have hR : 0 < 2 ^ (-x).toNat := Nat.pow_pos (by decide)
    have hR2 : 2 ^ (-x).toNat ≤ 2 ^ 52 := Nat.pow_le_pow_right (by decide) (by omega)
    have hm := le_rne (n * 2 ^ (-x).toNat) (d * 2 ^ x.toNat)
    have hq : 2 ^ 52 ≤ n * 2 ^ (-x).toNat / (d * 2 ^ x.toNat) := by
      rw [Nat.le_div_iff_mul_le (Nat.mul_pos hd hQ)]
      calc 2 ^ 52 * (d * 2 ^ x.toNat) = 2 ^ 52 * d * 2 ^ x.toNat := by ring
        _ ≤ n * 2 ^ (-x).toNat := s1
    generalize rne (n * 2 ^ (-x).toNat) (d * 2 ^ x.toNat) = m at hm ⊢
    simp only [Nat.pow_zero, Nat.mul_one, Nat.pow_add, Nat.pow_one]
    generalize 2 ^ j = P at hP ⊢
    generalize 2 ^ x.toNat = Q at hQ s1
    generalize 2 ^ (-x).toNat = R at hR hR2 s1
    constructor
    · intro _
      have : 2 ^ 52 * d ≤ n * 2 ^ 52 := by
        calc 2 ^ 52 * d ≤ 2 ^ 52 * d * Q := Nat.le_mul_of_pos_right _ hQ
          _ ≤ n * R := s1
          _ ≤ n * 2 ^ 52 := Nat.mul_le_mul_left n hR2
      omega
    · intro _
      have : 2 ^ 52 * 2 ≤ m * (2 * P) := by
        calc 2 ^ 52 * 2 ≤ m * 2 := Nat.mul_le_mul_right 2 (by omega)
          _ ≤ m * (2 * P) := Nat.mul_le_mul_left m (by omega)
      omega

end threshold

section loadfactor

/-- An `int` in `[1, 2 ^ 53)` converts to `float64` without rounding. -/
theorem ofInt_of_pos {a : Nat} (h1 : 0 < a) (h2 : a < 2 ^ 53) :
    ∃ k : Nat, F64.ofInt (a : Int) = .fin ((a * 2 ^ k : Nat) : Int) (-(k : Int)) := by
  obtain ⟨s1, _⟩ := roundExp_spec h1 (show 0 < 1 by decide)
  have hne : (a : Int) ≠ 0 := by omega
  have hpos : ¬ (a : Int) < 0 := by omega
  simp only [F64.ofInt, F64.ofRatio, hne, if_false, hpos, Int.natAbs_ofNat]
  generalize roundExp a 1 = x at s1 ⊢
  have hx : x ≤ 0 := by
    by_contra hc
    obtain ⟨j, hj⟩ : ∃ j : Nat, x.toNat = 1 + j := ⟨x.toNat - 1, by omega⟩
    have h0 : (-x).toNat = 0 := by omega
    rw [hj, h0] at s1
    simp only [Nat.pow_zero, Nat.mul_one, Nat.pow_add, Nat.pow_one] at s1
    have hP : 0 < 2 ^ j := Nat.pow_pos (by decide)
    generalize 2 ^ j = P at hP s1
    omega
  have h0 : x.toNat = 0 := by omega
  refine ⟨(-x).toNat, ?_⟩
  rw [h0, Nat.pow_zero, Nat.mul_one, rne_one]
  congr 1
  omega

theorem F64.ofInt_zero : F64.ofInt 0 = .fin 0 0 := by decide

/-- The load-factor test on integers below `2 ^ 53`, in exact arithmetic. -/
theorem ge_div_ofInt_iff {e s : Nat} (he : e < 2 ^ 53) (hs0 : 0 < s) (hs : s < 2 ^ 53) :
    F64.ge (F64.div (F64.ofInt (e : Int)) (F64.ofInt (s : Int))) F64.c0_7 = true ↔
      12610078956637387 * s ≤ 2 ^ 54 * e := by
  obtain ⟨k₂, hk₂⟩ := ofInt_of_pos hs0 hs
  have hs2 : 0 < s * 2 ^ k₂ := Nat.mul_pos hs0 (Nat.pow_pos (by decide))
  have hne2 : ((s * 2 ^ k₂ : Nat) : Int) ≠ 0 := by omega
  have hpos2 : ¬ ((s * 2 ^ k₂ : Nat) : Int) < 0 := by omega
  rw [hk₂, F64.c0_7_eq]
  rcases Nat.eq_zero_or_pos e with rfl | he0
  · have : F64.div (F64.ofInt ((0 : Nat) : Int)) (.fin ((s * 2 ^ k₂ : Nat) : Int) (-(k₂ : Int))) =
        .fin 0 0 := by
      rw [Nat.cast_zero, F64.ofInt_zero]
      simp only [F64.div, hne2, if_false, hpos2, Int.zero_mul, F64.ofRatio, if_true]
    rw [this]
    simp only [F64.ge, Int.zero_mul, decide_eq_true_eq]
    constructor
    · intro h
      exfalso
      have : (0 : Int) < 6305039478318694 * 2 ^ (-53 - (0 : Int)).toNat :=
        Int.mul_pos (by decide) (pow_pos (by decide) _)
      omega
    · intro h
      omega
  · obtain ⟨k₁, hk₁⟩ := ofInt_of_pos he0 he
    rw [hk₁]
    simp only [F64.div, hne2, if_false, hpos2, Int.natAbs_ofNat]
    rcases Nat.le_total k₁ k₂ with hk | hk
    · obtain ⟨j, rfl⟩ := Nat.exists_eq_add_of_le hk
      have t1 : (-(k₁ : Int) - -((k₁ + j : Nat) : Int)).toNat = j := by omega
      have t2 : (-((k₁ + j : Nat) : Int) - -(k₁ : Int)).toNat = 0 := by omega
      rw [t1, t2, Nat.pow_zero, Nat.mul_one]
      have hcast : ((e * 2 ^ k₁ : Nat) : Int) * 2 ^ j = ((e * 2 ^ k₁ * 2 ^ j : Nat) : Int) := by
        push_cast; ring
      rw [hcast, ofRatio_ge_c0_7 (Nat.mul_pos (Nat.mul_pos he0 (Nat.pow_pos (by decide)))
        (Nat.pow_pos (by decide))) hs2]
      have hM : 0 < 2 ^ k₁ * 2 ^ j := Nat.mul_pos (Nat.pow_pos (by decide)) (Nat.pow_pos (by decide))
      rw [Nat.pow_add]
      rw [show 12610078956637387 * (s * (2 ^ k₁ * 2 ^ j)) =
          (12610078956637387 * s) * (2 ^ k₁ * 2 ^ j) by ring,
        show 2 ^ 54 * (e * 2 ^ k₁ * 2 ^ j) = (2 ^ 54 * e) * (2 ^ k₁ * 2 ^ j) by ring]
      exact mul_le_mul_right hM
    · obtain ⟨j, rfl⟩ := Nat.exists_eq_add_of_le hk
      have t1 : (-((k₂ + j : Nat) : Int) - -(k₂ : Int)).toNat = 0 := by omega
      have t2 : (-(k₂ : Int) - -((k₂ + j : Nat) : Int)).toNat = j := by omega
      rw [t1, t2, pow_zero, mul_one]
      rw [ofRatio_ge_c0_7 (Nat.mul_pos he0 (Nat.pow_pos (by decide)))
        (Nat.mul_pos hs2 (Nat.pow_pos (by decide)))]
      have hM : 0 < 2 ^ k₂ * 2 ^ j := Nat.mul_pos (Nat.pow_pos (by decide)) (Nat.pow_pos (by decide))
      rw [Nat.pow_add]
      rw [show 12610078956637387 * (s * 2 ^ k₂ * 2 ^ j) =
          (12610078956637387 * s) * (2 ^ k₂ * 2 ^ j) by ring,
        show 2 ^ 54 * (e * (2 ^ k₂ * 2 ^ j)) = (2 ^ 54 * e) * (2 ^ k₂ * 2 ^ j) by ring]
      exact mul_le_mul_right hM

variable {T : Type}

/-- The load-factor test of a table with the threshold of `NewHashMap`, for a
count and a capacity below `2 ^ 53`: it holds exactly when
`elementCount / size ≥ 12610078956637387 / 2 ^ 54`, the midpoint between the
`float64` constant `0.7` and the `float64` just below it. -/
theorem loadFactorReached_iff {hm : HashMap T} (ht : hm.threshold = F64.c0_7)
    (he0 : 0 ≤ hm.elementCount) (he : hm.elementCount < 2 ^ 53) (hs0 : 1 ≤ hm.size)
    (hs : hm.size < 2 ^ 53) :
    hm.loadFactorReached = true ↔ 12610078956637387 * hm.size ≤ 2 ^ 54 * hm.elementCount := by
  unfold HashMap.loadFactorReached
  rw [ht]
  obtain ⟨e, he'⟩ := Int.eq_ofNat_of_zero_le he0
  obtain ⟨s, hs'⟩ := Int.eq_ofNat_of_zero_le (show 0 ≤ hm.size by omega)
  rw [he'] at he
  rw [hs'] at hs0 hs
  rw [he', hs']
  rw [ge_div_ofInt_iff (by exact_mod_cast he) (by omega) (by exact_mod_cast hs)]
  constructor
  · intro h
    exact_mod_cast h
  · intro h
    exact_mod_cast h

/-- In that range the test holds whenever `elementCount / size ≥ 0.7`. -/
theorem loadFactorReached_of_le {hm : HashMap T} (ht : hm.threshold = F64.c0_7)
    (he0 : 0 ≤ hm.elementCount) (he : hm.elementCount < 2 ^ 53) (hs0 : 1 ≤ hm.size)
    (hs : hm.size < 2 ^ 53) (h : 7 * hm.size ≤ 10 * hm.elementCount) :
    hm.loadFactorReached = true := by
  rw [loadFactorReached_iff ht he0 he hs0 hs]
  omega

/-- For a capacity below `2 ^ 54 / 18` the test is the exact comparison
`elementCount / size ≥ 0.7`. -/
theorem loadFactorReached_iff_exact {hm : HashMap T} (ht : hm.threshold = F64.c0_7)
    (he0 : 0 ≤ hm.elementCount) (he : hm.elementCount < 2 ^ 53) (hs0 : 1 ≤ hm.size)
    (hs : 18 * hm.size < 2 ^ 54) :
    hm.loadFactorReached = true ↔ 7 * hm.size ≤ 10 * hm.elementCount := by
  rw [loadFactorReached_iff ht he0 he hs0 (by omega)]
  omega

end loadfactor

/-! ## Lists of buckets -/

section lists
variable {α : Type}

theorem mem_flatten_iff_getElem? {L : List (List α)} {a : α} :
    a ∈ L.flatten ↔ ∃ (j : Nat) (b : List α), L[j]? = some b ∧ a ∈ b := by
  rw [List.mem_flatten]
  constructor
  · rintro ⟨b, hb, ha⟩
    obtain ⟨j, hj⟩ := List.mem_iff_getElem?.1 hb
    exact ⟨j, b, hj, ha⟩
  · rintro ⟨j, b, hj, ha⟩
    exact ⟨b, List.getElem?_mem hj, ha⟩

theorem getElem?_set_self_of_some {L : List (List α)} {i : Nat} {b b' : List α}
    (h : L[i]? = some b) : (L.set i b')[i]? = some b' := by
  have hi : i < L.length := (List.getElem?_eq_some.1 h).1
  simp [List.getElem?_set, hi]

theorem mem_flatten_set {L : List (List α)} {i : Nat} {b b' : List α} (h : L[i]? = some b)
    {a : α} :
    a ∈ (L.set i b').flatten ↔ a ∈ b' ∨ ∃ (j : Nat) (c : List α), j ≠ i ∧ L[j]? = some c ∧ a ∈ c := by
  have hi : i < L.length := (List.getElem?_eq_some.1 h).1
  rw [mem_flatten_iff_getElem?]
  constructor
  · rintro ⟨j, c, hj, ha⟩
    by_cases hji : j = i
    · subst hji
      rw [getElem?_set_self_of_some h] at hj
      cases hj
      exact Or.inl ha
    · rw [List.getElem?_set, if_neg (Ne.symm hji)] at hj
      exact Or.inr ⟨j, c, hji, hj, ha⟩
  · rintro (ha | ⟨j, c, hji, hj, ha⟩)
    · exact ⟨i, b', getElem?_set_self_of_some h, ha⟩
    · refine ⟨j, c, ?_, ha⟩
      rw [List.getElem?_set, if_neg (Ne.symm hji)]
      exact hj

theorem sum_length_set {L : List (List α)} {i : Nat} {b : List α} (h : L[i]? = some b)
    (b' : List α) :
    (((L.set i b').map List.length).sum : Int) =
      ((L.map List.length).sum : Int) - b.length + b'.length := by
  induction L generalizing i with
  | nil => simp at h
  | cons c L ih =>
    cases i with
    | zero =>
      simp only [List.getElem?_cons_zero, Option.some.injEq] at h
      subst h
      simp only [List.set_cons_zero, List.map_cons, List.sum_cons, Nat.cast_add]
      omega
    | succ i =>
      simp only [List.getElem?_cons_succ] at h
      have := ih h
      simp only [List.set_cons_succ, List.map_cons, List.sum_cons, Nat.cast_add]
      omega

theorem flatten_set_append_perm {L : List (List α)} {i : Nat} {b : List α}
    (h : L[i]? = some b) (a : α) :
    List.Perm (L.set i (b ++ [a])).flatten (L.flatten ++ [a]) := by
  induction L generalizing i with
  | nil => simp at h
  | cons c L ih =>
    cases i with
    | zero =>
      simp only [List.getElem?_cons_zero, Option.some.injEq] at h
      subst h
      simp only [List.set_cons_zero, List.flatten_cons, List.append_assoc]
      exact List.Perm.append_left _ List.perm_append_comm
    | succ i =>
      simp only [List.getElem?_cons_succ] at h
      simp only [List.set_cons_succ, List.flatten_cons, List.append_assoc]
      exact List.Perm.append_left _ (ih h)

theorem length_flatten_eq_sum (L : List (List α)) :
    L.flatten.length = (L.map List.length).sum := by
  induction L with
  | nil => rfl
  | cons c L ih => simp [ih]

end lists

/-! ## The loops over one bucket -/

section bucket
variable {T : Type}

theorem setValue_eq_none {key : String} {value : T} {b : List (KeyValue T)} :
    setValue key value b = none ↔ key ∉ b.map (·.Key) := by
  induction b with
  | nil => simp [setValue]
  | cons kv rest ih =>
    by_cases h : kv.Key = key
    · simp [setValue, h]
    · have h' : ¬ key = kv.Key := fun e => h e.symm
      simp [setValue, h, h', ih]

theorem setValue_keys {key : String} {value : T} {b b' : List (KeyValue T)}
    (h : setValue key value b = some b') : b'.map (·.Key) = b.map (·.Key) := by
  induction b generalizing b' with
  | nil => simp [setValue] at h
  | cons kv rest ih =>
    by_cases hk : kv.Key = key
    · simp only [setValue, hk, if_true, Option.some.injEq] at h
      subst h
      simp [hk]
    · simp only [setValue, hk, if_false, Option.map_eq_some'] at h
      obtain ⟨r, hr, rfl⟩ := h
      simp [ih hr]

theorem setValue_mem {key : String} {value : T} {b b' : List (KeyValue T)}
    (hn : (b.map (·.Key)).Nodup) (h : setValue key value b = some b') (e : KeyValue T) :
    e ∈ b' ↔ e = { Key := key, Value := value } ∨ (e ∈ b ∧ e.Key ≠ key) := by
  induction b generalizing b' with
  | nil => simp [setValue] at h
  | cons kv rest ih =>
    simp only [List.map_cons, List.nodup_cons, List.mem_map, not_exists, not_and] at hn
    by_cases hk : kv.Key = key
    · simp only [setValue, hk, if_true, Option.some.injEq] at h
      subst h
      simp only [List.mem_cons]
      constructor
      · rintro (rfl | he)
        · exact Or.inl rfl
        · exact Or.inr ⟨Or.inr he, fun e' => hn.1 e he (e'.trans hk.symm)⟩
      · rintro (rfl | ⟨rfl | he, hne⟩)
        · exact Or.inl rfl
        · exact absurd hk hne
        · exact Or.inr he
    · simp only [setValue, hk, if_false, Option.map_eq_some'] at h
      obtain ⟨r, hr, rfl⟩ := h
      simp only [List.mem_cons, ih hn.2 hr]
      constructor
      · rintro (rfl | he | ⟨he, hne⟩)
        · exact Or.inr ⟨Or.inl rfl, hk⟩
        · exact Or.inl he
        · exact Or.inr ⟨Or.inr he, hne⟩
      · rintro (he | ⟨rfl | he, hne⟩)
        · exact Or.inr (Or.inl he)
        · exact Or.inl rfl
        · exact Or.inr (Or.inr ⟨he, hne⟩)

theorem putValue_snd (key : String) (value : T) (b : List (KeyValue T)) :
    (putValue key value b).map Prod.snd = setValue key value b := by
  induction b with
  | nil => rfl
  | cons kv rest ih =>
    by_cases hk : kv.Key = key
    · simp [putValue, setValue, hk]
    · have hk' : ¬ key = kv.Key := fun e => hk e.symm
      simp only [putValue, setValue, hk, hk', if_false, Option.map_map, ← ih]
      rfl

theorem putValue_fst (key : String) (value : T) (b : List (KeyValue T)) :
    (putValue key value b).map Prod.fst =
      (b.find? (fun kv => decide (key = kv.Key))).map (·.Value) := by
  induction b with
  | nil => rfl
  | cons kv rest ih =>
    by_cases hk : key = kv.Key
    · simp [putValue, hk]
    · simp only [putValue, hk, if_false, Option.map_map, List.find?_cons, decide_False, ← ih]
      rfl

theorem deleteEntry_eq_none {key : String} {b : List (KeyValue T)} :
    deleteEntry key b = none ↔ key ∉ b.map (·.Key) := by
  induction b with
  | nil => simp [deleteEntry]
  | cons kv rest ih =>
    by_cases h : key = kv.Key
    · simp [deleteEntry, h]
    · simp [deleteEntry, h, ih]

theorem deleteEntry_keys {key : String} {b b' : List (KeyValue T)}
    (h : deleteEntry key b = some b') : b'.map (·.Key) = (b.map (·.Key)).erase key := by
  induction b generalizing b' with
  | nil => simp [deleteEntry] at h
  | cons kv rest ih =>
    by_cases hk : key = kv.Key
    · simp only [deleteEntry, hk, if_true, Option.some.injEq] at h
      subst h
      simp [hk]
    · simp only [deleteEntry, hk, if_false, Option.map_eq_some'] at h
      obtain ⟨r, hr, rfl⟩ := h
      have hk' : ¬ kv.Key = key := fun e => hk e.symm
      simp [ih hr, List.erase_cons_tail, hk']

theorem deleteEntry_length {key : String} {b b' : List (KeyValue T)}
    (h : deleteEntry key b = some b') : b'.length + 1 = b.length := by
  induction b generalizing b' with
  | nil => simp [deleteEntry] at h
  | cons kv rest ih =>
    by_cases hk : key = kv.Key
    · simp only [deleteEntry, hk, if_true, Option.some.injEq] at h
      subst h
      simp
    · simp only [deleteEntry, hk, if_false, Option.map_eq_some'] at h
      obtain ⟨r, hr, rfl⟩ := h
      simp [ih hr]

theorem deleteEntry_mem {key : String} {b b' : List (KeyValue T)}
    (hn : (b.map (·.Key)).Nodup) (h : deleteEntry key b = some b') (e : KeyValue T) :
    e ∈ b' ↔ e ∈ b ∧ e.Key ≠ key := by
  induction b generalizing b' with
  | nil => simp [deleteEntry] at h
  | cons kv rest ih =>
    simp only [List.map_cons, List.nodup_cons, List.mem_map, not_exists, not_and] at hn
    by_cases hk : key = kv.Key
    · simp only [deleteEntry, hk, if_true, Option.some.injEq] at h
      subst h
      simp only [List.mem_cons]
      constructor
      · intro he
        exact ⟨Or.inr he, fun e' => hn.1 e he (e'.trans hk)⟩
      · rintro ⟨rfl | he, hne⟩
        · exact absurd hk.symm hne
        · exact he
    · simp only [deleteEntry, hk, if_false, Option.map_eq_some'] at h
      obtain ⟨r, hr, rfl⟩ := h
      simp only [List.mem_cons, ih hn.2 hr]
      constructor
      · rintro (rfl | ⟨he, hne⟩)
        · exact ⟨Or.inl rfl, fun e' => hk e'.symm⟩
        · exact ⟨Or.inr he, hne⟩
      · rintro ⟨rfl | he, hne⟩
        · exact Or.inl rfl
        · exact Or.inr ⟨he, hne⟩

theorem find?_key_eq_none {key : String} {b : List (KeyValue T)} :
    b.find? (fun kv => decide (key = kv.Key)) = none ↔ key ∉ b.map (·.Key) := by
  simp only [List.find?_eq_none, decide_eq_true_eq, List.mem_map, not_exists, not_and]
  constructor
  · intro h e he hk
    exact h e he hk.symm
  · intro h e he hk
    exact h e he hk.symm

theorem find?_key_eq_some {key : String} {b : List (KeyValue T)}
    (hn : (b.map (·.Key)).Nodup) (e : KeyValue T) :
    b.find? (fun kv => decide (key = kv.Key)) = some e ↔ e ∈ b ∧ e.Key = key := by
  constructor
  · intro h
    have h1 : key = e.Key := by simpa using List.find?_some h
    exact ⟨List.mem_of_find?_eq_some h, h1.symm⟩
  · rintro ⟨he, hk⟩
    cases hf : b.find? (fun kv => decide (key = kv.Key)) with
    | none =>
      exact absurd (List.mem_map.2 ⟨e, he, hk⟩) (find?_key_eq_none.1 hf)
    | some e' =>
      have h1 : key = e'.Key := by simpa using List.find?_some hf
      have h2 := List.mem_of_find?_eq_some hf
      rw [List.inj_on_of_nodup_map hn h2 he (h1.symm.trans hk.symm)]

end bucket

/-! ## Well-formed tables -/

section table
variable {T : Type} (sum64 : Nat → String → Nat)

theorem bucketIndex_of_pos (seed : Nat) {size : Int} (key : String) (h : 1 ≤ size) :
    ∃ i, bucketIndex sum64 seed size key = some i ∧ i < size.toNat := by
  have h0 : uint64 size ≠ 0 := by unfold uint64; omega
  refine ⟨sum64 seed key % 2 ^ 64 % uint64 size, by simp [bucketIndex, h0], ?_⟩
  exact Nat.mod_lt _ (Nat.pos_of_ne_zero h0)

theorem hash_congr {hm hm' : HashMap T} (hseed : hm'.seed = hm.seed) (hsize : hm'.size = hm.size)
    (key : String) : hm'.hash sum64 key = hm.hash sum64 key := by
  simp [HashMap.hash, hseed, hsize]

variable {sum64}

theorem HashMap.WF.hash_bucket {hm : HashMap T} (h : hm.WF sum64) (key : String) :
    ∃ (i : Nat) (b : List (KeyValue T)), hm.hash sum64 key = some i ∧ hm.buckets[i]? = some b := by
  obtain ⟨i, hi, hlt⟩ := bucketIndex_of_pos sum64 hm.seed key h.1
  have hlen : i < hm.buckets.length := by
    have := h.2.1
    omega
  exact ⟨i, hm.buckets[i], hi, List.getElem?_eq_getElem hlen⟩

theorem HashMap.WF.placed {hm : HashMap T} (h : hm.WF sum64) {j : Nat} {c : List (KeyValue T)}
    (hj : hm.buckets[j]? = some c) {e : KeyValue T} (he : e ∈ c) :
    hm.hash sum64 e.Key = some j := by
  obtain ⟨hlt, rfl⟩ := List.getElem?_eq_some.1 hj
  exact h.2.2.1 j hlt e he

theorem HashMap.WF.mem_entries {hm : HashMap T} (h : hm.WF sum64) {e : KeyValue T} :
    e ∈ hm.entries ↔ ∃ (i : Nat) (b : List (KeyValue T)),
      hm.hash sum64 e.Key = some i ∧ hm.buckets[i]? = some b ∧ e ∈ b := by
  unfold HashMap.entries
  rw [mem_flatten_iff_getElem?]
  constructor
  · rintro ⟨j, c, hj, he⟩
    exact ⟨j, c, h.placed hj he, hj, he⟩
  · rintro ⟨i, b, _, hb, he⟩
    exact ⟨i, b, hb, he⟩

theorem HashMap.WF.nodup_bucket {hm : HashMap T} (h : hm.WF sum64) {j : Nat}
    {c : List (KeyValue T)} (hj : hm.buckets[j]? = some c) : (c.map (·.Key)).Nodup := by
  have hs : c.Sublist hm.buckets.flatten := List.sublist_flatten_of_mem (List.getElem?_mem hj)
  exact List.Nodup.sublist (hs.map _) h.2.2.2

theorem HashMap.WF.mem_bucket_of_mem_entries {hm : HashMap T} (h : hm.WF sum64) {e : KeyValue T}
    (he : e ∈ hm.entries) {i : Nat} {b : List (KeyValue T)} (hi : hm.hash sum64 e.Key = some i)
    (hb : hm.buckets[i]? = some b) : e ∈ b := by
  obtain ⟨i', b', hi', hb', he'⟩ := h.mem_entries.1 he
  rw [hi] at hi'
  cases hi'
  rw [hb] at hb'
  cases hb'
  exact he'

theorem HashMap.WF.stored_iff {hm : HashMap T} (h : hm.WF sum64) {key : String} {i : Nat}
    {b : List (KeyValue T)} (hi : hm.hash sum64 key = some i) (hb : hm.buckets[i]? = some b) :
    hm.Stored key ↔ key ∈ b.map (·.Key) := by
  unfold HashMap.Stored
  simp only [List.mem_map]
  constructor
  · rintro ⟨e, he, rfl⟩
    exact ⟨e, h.mem_bucket_of_mem_entries he hi hb, rfl⟩
  · rintro ⟨e, he, rfl⟩
    exact ⟨e, h.mem_entries.2 ⟨i, b, hi, hb, he⟩, rfl⟩

/-- Buckets whose entries are placed by key and which have no duplicate key
flatten to a list without duplicate key. -/
theorem nodup_keys_flatten {L : List (List (KeyValue T))} {f : String → Option Nat}
    (hp : ∀ (j : Nat) (c : List (KeyValue T)), L[j]? = some c → ∀ e ∈ c, f e.Key = some j)
    (hn : ∀ (j : Nat) (c : List (KeyValue T)), L[j]? = some c → (c.map (·.Key)).Nodup) :
    (L.flatten.map (·.Key)).Nodup := by
  rw [List.map_flatten, List.nodup_flatten]
  constructor
  · intro l hl
    obtain ⟨c, hc, rfl⟩ := List.mem_map.1 hl
    obtain ⟨j, hj⟩ := List.mem_iff_getElem?.1 hc
    exact hn j c hj
  · rw [List.pairwise_iff_getElem]
    intro i j hi hj hij
    simp only [List.length_map] at hi hj
    simp only [List.getElem_map]
    intro k hk1 hk2
    obtain ⟨e1, he1, rfl⟩ := List.mem_map.1 hk1
    obtain ⟨e2, he2, hk⟩ := List.mem_map.1 hk2
    have h1 := hp i _ (List.getElem?_eq_getElem hi) e1 he1
    have h2 := hp j _ (List.getElem?_eq_getElem hj) e2 he2
    have hk' : e2.Key = e1.Key := hk
    rw [hk', h1] at h2
    cases h2
    omega

/-- Replacing the bucket of `key` by a bucket without duplicate key whose
entries are old ones or have key `key` keeps the table well formed. -/
theorem HashMap.WF.set_bucket {hm : HashMap T} (h : hm.WF sum64) {key : String} {i : Nat}
    {b b' : List (KeyValue T)} (hi : hm.hash sum64 key = some i) (hb : hm.buckets[i]? = some b)
    (hsub : ∀ e ∈ b', e.Key = key ∨ e ∈ b) (hnd : (b'.map (·.Key)).Nodup) (count : Int) :
    HashMap.WF sum64 { hm with buckets := hm.buckets.set i b', elementCount := count } := by
  have hplaced : ∀ (j : Nat) (c : List (KeyValue T)), (hm.buckets.set i b')[j]? = some c →
      ∀ e ∈ c, hm.hash sum64 e.Key = some j := by
    intro j c hj e he
    by_cases hji : j = i
    · subst hji
      rw [getElem?_set_self_of_some hb] at hj
      cases hj
      rcases hsub e he with hk | he'
      · rw [hk]; exact hi
      · exact h.placed hb he'
    · rw [List.getElem?_set, if_neg (Ne.symm hji)] at hj
      exact h.placed hj he
  refine ⟨h.1, ?_, ?_, ?_⟩
  · simpa using h.2.1
  · intro j hlt e he
    exact hplaced j _ (List.getElem?_eq_getElem hlt) e he
  · refine nodup_keys_flatten hplaced ?_
    intro j c hj
    by_cases hji : j = i
    · subst hji
      rw [getElem?_set_self_of_some hb] at hj
      cases hj
      exact hnd
    · rw [List.getElem?_set, if_neg (Ne.symm hji)] at hj
      exact h.nodup_bucket hj

/-- Membership in the entries after the bucket of `key` is replaced. -/
theorem HashMap.WF.mem_entries_set {hm : HashMap T} (h : hm.WF sum64) {key : String} {i : Nat}
    {b b' : List (KeyValue T)} (hi : hm.hash sum64 key = some i) (hb : hm.buckets[i]? = some b)
    (e : KeyValue T) :
    e ∈ (hm.buckets.set i b').flatten ↔ e ∈ b' ∨ (e ∈ hm.entries ∧ e ∉ b) := by
  rw [mem_flatten_set hb]
  constructor
  · rintro (he | ⟨j, c, hji, hj, he⟩)
    · exact Or.inl he
    · refine Or.inr ⟨mem_flatten_iff_getElem?.2 ⟨j, c, hj, he⟩, fun heb => hji ?_⟩
      have h1 := h.placed hj he
      rw [h.placed hb heb] at h1
      cases h1
      rfl
  · rintro (he | ⟨he, hne⟩)
    · exact Or.inl he
    · obtain ⟨j, c, hj, hc⟩ := mem_flatten_iff_getElem?.1 he
      refine Or.inr ⟨j, c, ?_, hj, hc⟩
      rintro rfl
      rw [hb] at hj
      cases hj
      exact hne hc

end table

/-! ## Lookup -/

section lookup
variable {T : Type} {sum64 : Nat → String → Nat}

theorem HashMap.WF.get_ok_iff {hm : HashMap T} (h : hm.WF sum64) (key : String) (v : T) :
    hm.Get sum64 key = some (.ok v) ↔ { Key := key, Value := v } ∈ hm.entries := by
  obtain ⟨i, b, hi, hb⟩ := h.hash_bucket key
  have hn := h.nodup_bucket hb
  simp only [HashMap.Get, hi, hb, Option.bind_eq_bind, Option.some_bind]
  constructor
  · intro hg
    cases hf : b.find? (fun kv => decide (key = kv.Key)) with
    | none => simp [hf] at hg
    | some e =>
      simp only [hf, Option.some.injEq, Except.ok.injEq] at hg
      obtain ⟨he, hk⟩ := (find?_key_eq_some hn e).1 hf
      have : e = { Key := key, Value := v } := by
        cases e; simp_all
      rw [← this]
      exact h.mem_entries.2 ⟨i, b, by rw [hk]; exact hi, hb, he⟩
  · intro he
    have hb' := h.mem_bucket_of_mem_entries he hi hb
    rw [(find?_key_eq_some hn _).2 ⟨hb', rfl⟩]

theorem HashMap.WF.get_error_iff {hm : HashMap T} (h : hm.WF sum64) (key : String) :
    (∃ msg, hm.Get sum64 key = some (.error msg)) ↔ ¬ hm.Stored key := by
  obtain ⟨i, b, hi, hb⟩ := h.hash_bucket key
  rw [h.stored_iff hi hb, ← find?_key_eq_none]
  simp only [HashMap.Get, hi, hb, Option.bind_eq_bind, Option.some_bind]
  cases hf : b.find? (fun kv => decide (key = kv.Key)) <;> simp

theorem HashMap.WF.get_of_not_stored {hm : HashMap T} (h : hm.WF sum64) {key : String}
    (hs : ¬ hm.Stored key) : hm.Get sum64 key = some (.error ("key not found: " ++ key)) := by
  obtain ⟨i, b, hi, hb⟩ := h.hash_bucket key
  rw [h.stored_iff hi hb, ← find?_key_eq_none] at hs
  simp [HashMap.Get, hi, hb, hs]

theorem HashMap.WF.get_of_stored {hm : HashMap T} (h : hm.WF sum64) {key : String}
    (hs : hm.Stored key) : ∃ v, hm.Get sum64 key = some (.ok v) := by
  obtain ⟨e, he, rfl⟩ := List.mem_map.1 hs
  exact ⟨e.Value, (h.get_ok_iff _ _).2 he⟩

theorem HashMap.WF.containsKey_eq {hm : HashMap T} (h : hm.WF sum64) (key : String) :
    hm.ContainsKey sum64 key = some (decide (hm.Stored key)) := by
  obtain ⟨i, b, hi, hb⟩ := h.hash_bucket key
  simp only [HashMap.ContainsKey, hi, hb, Option.bind_eq_bind, Option.some_bind,
    Option.some.injEq]
  rw [Bool.eq_iff_iff, List.any_eq_true, decide_eq_true_iff, h.stored_iff hi hb]
  simp only [decide_eq_true_eq, List.mem_map]
  constructor
  · rintro ⟨e, he, hk⟩
    exact ⟨e, he, hk.symm⟩
  · rintro ⟨e, he, hk⟩
    exact ⟨e, he, hk.symm⟩

end lookup

/-! ## Insertion, update and removal -/

section update
variable {T : Type} {sum64 : Nat → String → Nat}

/-- What the statements of `Set` after the resize check do to a well-formed
table. -/
theorem HashMap.WF.store_spec {hm : HashMap T} (h : hm.WF sum64) (key : String) (value : T) :
    ∃ hm', hm.store sum64 key value = some hm' ∧ hm'.WF sum64 ∧
      hm'.size = hm.size ∧ hm'.seed = hm.seed ∧ hm'.threshold = hm.threshold ∧
      (∀ e, e ∈ hm'.entries ↔ e = { Key := key, Value := value } ∨ (e ∈ hm.entries ∧ e.Key ≠ key)) ∧
      hm'.elementCount = hm.elementCount + (if hm.Stored key then 0 else 1) ∧
      ((hm'.buckets.map List.length).sum : Int) =
        (hm.buckets.map List.length).sum + (if hm.Stored key then 0 else 1) := by
  obtain ⟨i, b, hi, hb⟩ := h.hash_bucket key
  have hn := h.nodup_bucket hb
  have hst := h.stored_iff hi hb
  simp only [HashMap.store, hi, hb, Option.bind_eq_bind, Option.some_bind]
  cases hsv : setValue key value b with
  | some b' =>
    have hkeys := setValue_keys hsv
    have hmem := setValue_mem hn hsv
    have hin : key ∈ b.map (·.Key) := by
      by_contra hc
      rw [setValue_eq_none.2 hc] at hsv
      cases hsv
    have hlen : b'.length = b.length := by
      simpa using congrArg List.length hkeys
    refine ⟨_, rfl, ?_, rfl, rfl, rfl, ?_, ?_, ?_⟩
    · refine h.set_bucket hi hb ?_ (by rw [hkeys]; exact hn) _
      intro e he
      rcases (hmem e).1 he with rfl | ⟨he', _⟩
      · exact Or.inl rfl
      · exact Or.inr he'
    · intro e
      show e ∈ (hm.buckets.set i b').flatten ↔ _
      rw [h.mem_entries_set hi hb, hmem e]
      constructor
      · rintro ((rfl | ⟨he, hne⟩) | ⟨he, hne⟩)
        · exact Or.inl rfl
        · exact Or.inr ⟨h.mem_entries.2 ⟨i, b, by rw [h.placed hb he], hb, he⟩, hne⟩
        · refine Or.inr ⟨he, fun hk => hne ?_⟩
          exact h.mem_bucket_of_mem_entries he (by rw [hk]; exact hi) hb
      · rintro (rfl | ⟨he, hne⟩)
        · exact Or.inl (Or.inl rfl)
        · by_cases heb : e ∈ b
          · exact Or.inl (Or.inr ⟨heb, hne⟩)
          · exact Or.inr ⟨he, heb⟩
    · simp [hst.2 hin]
    · show (((hm.buckets.set i b').map List.length).sum : Int) = _
      rw [sum_length_set hb, hlen, if_pos (hst.2 hin)]
      omega
  | none =>
    have hnin : key ∉ b.map (·.Key) := setValue_eq_none.1 hsv
    have hns : ¬ hm.Stored key := fun hs => hnin (hst.1 hs)
    refine ⟨_, rfl, ?_, rfl, rfl, rfl, ?_, ?_, ?_⟩
    · refine h.set_bucket hi hb ?_ ?_ _
      · intro e he
        rcases List.mem_append.1 he with he' | he'
        · exact Or.inr he'
        · rw [List.mem_singleton.1 he']
          exact Or.inl rfl
      · rw [List.map_append, List.nodup_append]
        refine ⟨hn, by simp, ?_⟩
        intro k hk1 hk2
        simp only [List.map_cons, List.map_nil, List.mem_singleton] at hk2
        exact hnin (hk2 ▸ hk1)
    · intro e
      show e ∈ (hm.buckets.set i (b ++ [_])).flatten ↔ _
      rw [h.mem_entries_set hi hb, List.mem_append, List.mem_singleton]
      constructor
      · rintro ((he | rfl) | ⟨he, hne⟩)
        · refine Or.inr ⟨h.mem_entries.2 ⟨i, b, by rw [h.placed hb he], hb, he⟩, fun hk => hnin ?_⟩
          exact List.mem_map.2 ⟨e, he, hk⟩
        · exact Or.inl rfl
        · refine Or.inr ⟨he, fun hk => hne ?_⟩
          exact h.mem_bucket_of_mem_entries he (by rw [hk]; exact hi) hb
      · rintro (rfl | ⟨he, hne⟩)
        · exact Or.inl (Or.inr rfl)
        · by_cases heb : e ∈ b
          · exact Or.inl (Or.inl heb)
          · exact Or.inr ⟨he, heb⟩
    · simp [hns]
    · show (((hm.buckets.set i (b ++ [_])).map List.length).sum : Int) = _
      rw [sum_length_set hb, if_neg hns]
      simp only [List.length_append, List.length_singleton, Nat.cast_add, Nat.cast_one]
      omega

/-- The table that `Put` leaves is the one the statements of `Set` after the
resize check leave. -/
theorem put_fst_eq_store (sum64 : Nat → String → Nat) (hm : HashMap T) (key : String)
    (value : T) :
    (hm.Put sum64 key value).map Prod.fst = hm.store sum64 key value := by
  unfold HashMap.Put HashMap.store
  cases hi : hm.hash sum64 key with
  | none => rfl
  | some i =>
    simp only [Option.bind_eq_bind, Option.some_bind]
    cases hb : hm.buckets[i]? with
    | none => rfl
    | some b =>
      simp only [Option.some_bind]
      rw [← putValue_snd]
      cases putValue key value b with
      | none => rfl
      | some r => rfl

/-- The value returned by `Put` on a well-formed table. -/
theorem HashMap.WF.put_snd {hm : HashMap T} (h : hm.WF sum64) (key : String) (value : T) :
    ∃ r, (hm.Put sum64 key value).map Prod.snd = some (.ok r) ∧
      (hm.Stored key → ({ Key := key, Value := r } : KeyValue T) ∈ hm.entries) ∧
      (¬ hm.Stored key → r = value) := by
  obtain ⟨i, b, hi, hb⟩ := h.hash_bucket key
  have hn := h.nodup_bucket hb
  have hst := h.stored_iff hi hb
  have hfst := putValue_fst key value b
  simp only [HashMap.Put, hi, hb, Option.bind_eq_bind, Option.some_bind]
  cases hpv : putValue key value b with
  | some r =>
    obtain ⟨old, b'⟩ := r
    rw [hpv] at hfst
    cases hf : b.find? (fun kv => decide (key = kv.Key)) with
    | none => simp [hf] at hfst
    | some e =>
      simp only [hf, Option.map_some', Option.some.injEq] at hfst
      obtain ⟨he, hk⟩ := (find?_key_eq_some hn e).1 hf
      refine ⟨old, rfl, fun _ => ?_, fun hns => absurd (hst.2 (List.mem_map.2 ⟨e, he, hk⟩)) hns⟩
      have : e = { Key := key, Value := old } := by
        cases e; simp_all
      rw [← this]
      exact h.mem_entries.2 ⟨i, b, by rw [hk]; exact hi, hb, he⟩
  | none =>
    rw [hpv] at hfst
    have hf : b.find? (fun kv => decide (key = kv.Key)) = none := by
      cases hf : b.find? (fun kv => decide (key = kv.Key)) with
      | none => rfl
      | some e => simp [hf] at hfst
    have hnin := find?_key_eq_none.1 hf
    exact ⟨value, rfl, fun hs => absurd (hst.1 hs) hnin, fun _ => rfl⟩

/-- What `Delete` does to a well-formed table that stores `key`. -/
theorem HashMap.WF.delete_spec {hm : HashMap T} (h : hm.WF sum64) {key : String}
    (hs : hm.Stored key) :
    ∃ hm', hm.Delete sum64 key = some (hm', .ok ()) ∧ hm'.WF sum64 ∧
      hm'.size = hm.size ∧ hm'.seed = hm.seed ∧ hm'.threshold = hm.threshold ∧
      (∀ e, e ∈ hm'.entries ↔ e ∈ hm.entries ∧ e.Key ≠ key) ∧
      hm'.elementCount = hm.elementCount - 1 ∧
      ((hm'.buckets.map List.length).sum : Int) = (hm.buckets.map List.length).sum - 1 := by
  obtain ⟨i, b, hi, hb⟩ := h.hash_bucket key
  have hn := h.nodup_bucket hb
  have hst := h.stored_iff hi hb
  simp only [HashMap.Delete, hi, hb, Option.bind_eq_bind, Option.some_bind]
  cases hd : deleteEntry key b with
  | none => exact absurd (hst.1 hs) (deleteEntry_eq_none.1 hd)
  | some b' =>
    have hmem := deleteEntry_mem hn hd
    have hlen := deleteEntry_length hd
    refine ⟨_, rfl, ?_, rfl, rfl, rfl, ?_, rfl, ?_⟩
    · refine h.set_bucket hi hb (fun e he => Or.inr ((hmem e).1 he).1) ?_ _
      rw [deleteEntry_keys hd]
      exact hn.erase _
    · intro e
      show e ∈ (hm.buckets.set i b').flatten ↔ _
      rw [h.mem_entries_set hi hb, hmem e]
      constructor
      · rintro (⟨he, hne⟩ | ⟨he, hne⟩)
        · exact ⟨h.mem_entries.2 ⟨i, b, by rw [h.placed hb he], hb, he⟩, hne⟩
        · refine ⟨he, fun hk => hne ?_⟩
          exact h.mem_bucket_of_mem_entries he (by rw [hk]; exact hi) hb
      · rintro ⟨he, hne⟩
        by_cases heb : e ∈ b
        · exact Or.inl ⟨heb, hne⟩
        · exact Or.inr ⟨he, heb⟩
    · show (((hm.buckets.set i b').map List.length).sum : Int) = _
      rw [sum_length_set hb]
      omega

/-- `Delete` of a key that is not stored reports it and keeps the table. -/
theorem HashMap.WF.delete_of_not_stored {hm : HashMap T} (h : hm.WF sum64) {key : String}
    (hs : ¬ hm.Stored key) :
    hm.Delete sum64 key = some (hm, .error ("key not found: " ++ key)) := by
  obtain ⟨i, b, hi, hb⟩ := h.hash_bucket key
  rw [h.stored_iff hi hb, ← deleteEntry_eq_none] at hs
  simp [HashMap.Delete, hi, hb, hs]

end update

/-! ## Resizing -/

section resizing
variable {T : Type} (sum64 : Nat → String → Nat)

theorem rehashBucket_spec (seed : Nat) {n : Int} (hn : 1 ≤ n) (bucket : List (KeyValue T))
    (nb : List (List (KeyValue T))) (hlen : nb.length = n.toNat)
    (hp : ∀ (j : Nat) (c : List (KeyValue T)), nb[j]? = some c →
      ∀ e ∈ c, bucketIndex sum64 seed n e.Key = some j) :
    ∃ nb', rehashBucket sum64 seed n bucket nb = some nb' ∧ nb'.length = n.toNat ∧
      (∀ (j : Nat) (c : List (KeyValue T)), nb'[j]? = some c →
        ∀ e ∈ c, bucketIndex sum64 seed n e.Key = some j) ∧
      List.Perm nb'.flatten (nb.flatten ++ bucket) := by
  induction bucket generalizing nb with
  | nil => exact ⟨nb, rfl, hlen, hp, by simp⟩
  | cons kv rest ih =>
    obtain ⟨i, hi, hlt⟩ := bucketIndex_of_pos sum64 seed kv.Key hn
    have hb : nb[i]? = some nb[i] := List.getElem?_eq_getElem (by omega)
    have hp' : ∀ (j : Nat) (c : List (KeyValue T)), (nb.set i (nb[i] ++ [kv]))[j]? = some c →
        ∀ e ∈ c, bucketIndex sum64 seed n e.Key = some j := by
      intro j c hj e he
      by_cases hji : j = i
      · subst hji
        rw [getElem?_set_self_of_some hb] at hj
        cases hj
        rcases List.mem_append.1 he with he' | he'
        · exact hp j _ hb e he'
        · rw [List.mem_singleton.1 he']
          exact hi
      · rw [List.getElem?_set, if_neg (Ne.symm hji)] at hj
        exact hp j c hj e he
    obtain ⟨nb', h1, h2, h3, h4⟩ := ih (nb.set i (nb[i] ++ [kv])) (by simpa using hlen) hp'
    refine ⟨nb', ?_, h2, h3, ?_⟩
    · simp only [rehashBucket, hi, hb, Option.bind_eq_bind, Option.some_bind]
      exact h1
    · refine h4.trans ?_
      refine ((flatten_set_append_perm hb kv).append_right rest).trans ?_
      simp

theorem rehashAll_spec (seed : Nat) {n : Int} (hn : 1 ≤ n) (buckets : List (List (KeyValue T)))
    (nb : List (List (KeyValue T))) (hlen : nb.length = n.toNat)
    (hp : ∀ (j : Nat) (c : List (KeyValue T)), nb[j]? = some c →
      ∀ e ∈ c, bucketIndex sum64 seed n e.Key = some j) :
    ∃ nb', rehashAll sum64 seed n buckets nb = some nb' ∧ nb'.length = n.toNat ∧
      (∀ (j : Nat) (c : List (KeyValue T)), nb'[j]? = some c →
        ∀ e ∈ c, bucketIndex sum64 seed n e.Key = some j) ∧
      List.Perm nb'.flatten (nb.flatten ++ buckets.flatten) := by
  induction buckets generalizing nb with
  | nil => exact ⟨nb, rfl, hlen, hp, by simp⟩
  | cons bucket rest ih =>
    obtain ⟨nb1, h1, h2, h3, h4⟩ := rehashBucket_spec sum64 seed hn bucket nb hlen hp
    obtain ⟨nb', k1, k2, k3, k4⟩ := ih nb1 h2 h3
    refine ⟨nb', ?_, k2, k3, ?_⟩
    · simp only [rehashAll, h1, Option.bind_eq_bind, Option.some_bind]
      exact k1
    · refine k4.trans ?_
      refine (h4.append_right rest.flatten).trans ?_
      simp

variable {sum64}

/-- What `resize` does to a table of capacity at least 1. -/
theorem resize_spec (sum64 : Nat → String → Nat) {hm : HashMap T} (h1 : 1 ≤ hm.size) :
    ∃ hm', hm.resize sum64 = some hm' ∧ hm'.size = hm.size * 2 ∧ hm'.seed = hm.seed ∧
      hm'.threshold = hm.threshold ∧ hm'.elementCount = hm.elementCount ∧
      (hm'.buckets.length : Int) = hm'.size ∧ hm'.Placed sum64 ∧
      List.Perm hm'.entries hm.entries := by
  have hn : 1 ≤ hm.size * 2 := by omega
  obtain ⟨nb', k1, k2, k3, k4⟩ := rehashAll_spec sum64 hm.seed hn hm.buckets
    (List.replicate (hm.size * 2).toNat []) (by simp) (by
      intro j c hj e he
      rw [List.getElem?_replicate] at hj
      split at hj
      · cases hj
        cases he
      · cases hj)
  refine ⟨{ hm with size := hm.size * 2, buckets := nb' }, ?_, rfl, rfl, rfl, rfl, ?_, ?_, ?_⟩
  · have hneg : ¬ hm.size * 2 < 0 := by omega
    simp only [HashMap.resize, hneg, if_false, k1, Option.bind_eq_bind, Option.some_bind]
  · show (nb'.length : Int) = hm.size * 2
    omega
  · intro i hlt e he
    exact k3 i _ (List.getElem?_eq_getElem hlt) e he
  · have : (List.replicate (hm.size * 2).toNat ([] : List (KeyValue T))).flatten = [] := by
      simp
    simpa [HashMap.entries, this] using k4

theorem HashMap.WF.resize_wf {hm : HashMap T} (h : hm.WF sum64) :
    ∃ hm', hm.resize sum64 = some hm' ∧ hm'.WF sum64 ∧ hm'.size = hm.size * 2 ∧
      hm'.seed = hm.seed ∧ hm'.threshold = hm.threshold ∧
      hm'.elementCount = hm.elementCount ∧ List.Perm hm'.entries hm.entries := by
  obtain ⟨hm', h1, h2, h3, h4, h5, h6, h7, h8⟩ := resize_spec sum64 h.1
  have hpos := h.1
  refine ⟨hm', h1, ⟨by omega, h6, h7, ?_⟩, h2, h3, h4, h5, h8⟩
  exact ((h8.map _).nodup_iff).2 h.2.2.2

theorem stored_of_perm {hm hm' : HashMap T} (hp : List.Perm hm'.entries hm.entries)
    (key : String) : hm'.Stored key ↔ hm.Stored key :=
  (hp.map _).mem_iff

/-- What `Set` does to a well-formed table. -/
theorem HashMap.WF.set_spec {hm : HashMap T} (h : hm.WF sum64) (key : String) (value : T) :
    ∃ hm', hm.Set sum64 key value = some hm' ∧ hm'.WF sum64 ∧
      hm'.size = (if hm.loadFactorReached then hm.size * 2 else hm.size) ∧
      hm'.seed = hm.seed ∧ hm'.threshold = hm.threshold ∧
      (∀ e, e ∈ hm'.entries ↔ e = { Key := key, Value := value } ∨ (e ∈ hm.entries ∧ e.Key ≠ key)) ∧
      hm'.elementCount = hm.elementCount + (if hm.Stored key then 0 else 1) ∧
      ((hm'.buckets.map List.length).sum : Int) =
        (hm.buckets.map List.length).sum + (if hm.Stored key then 0 else 1) := by
  have hset : hm.Set sum64 key value =
      (if hm.loadFactorReached then hm.resize sum64 else some hm).bind
        (fun hm => hm.store sum64 key value) := rfl
  rw [hset]
  by_cases ht : hm.loadFactorReached = true
  · obtain ⟨hm1, r1, r2, r3, r4, r5, r6, r7⟩ := h.resize_wf
    obtain ⟨hm', s1, s2, s3, s4, s5, s6, s7, s8⟩ := r2.store_spec key value
    have hst : hm1.Stored key ↔ hm.Stored key := stored_of_perm r7 key
    have hlen : ((hm1.buckets.map List.length).sum : Int) = (hm.buckets.map List.length).sum := by
      rw [← length_flatten_eq_sum, ← length_flatten_eq_sum]
      exact congrArg Nat.cast r7.length_eq
    refine ⟨hm', ?_, s2, ?_, s4.trans r4, s5.trans r5, ?_, ?_, ?_⟩
    · simp only [ht, if_true, r1, Option.some_bind, s1]
    · simp only [ht, if_true, s3, r3]
    · intro e
      rw [s6 e, r7.mem_iff]
    · rw [s7, r6]
      simp only [hst]
    · rw [s8, hlen]
      simp only [hst]
  · obtain ⟨hm', s1, s2, s3, s4, s5, s6, s7, s8⟩ := h.store_spec key value
    refine ⟨hm', ?_, s2, ?_, s4, s5, s6, s7, s8⟩
    · rw [if_neg ht, Option.some_bind, s1]
    · rw [if_neg ht, s3]

end resizing

/-! ## The invariant along the operations -/

section invariant
variable {T : Type} {sum64 : Nat → String → Nat}

theorem newHashMap_spec (T : Type) (sum64 : Nat → String → Nat) (seed : Nat) {c : Int}
    (hc : 1 ≤ c) :
    ∃ hm : HashMap T, NewHashMap seed c = some hm ∧ hm.Inv sum64 ∧ hm.size = c ∧
      hm.seed = seed ∧ hm.threshold = F64.c0_7 ∧ hm.elementCount = 0 ∧ hm.entries = [] := by
  have hneg : ¬ c < 0 := by omega
  refine ⟨⟨List.replicate c.toNat [], c, F64.c0_7, seed, 0⟩, ?_, ⟨⟨hc, ?_, ?_, ?_⟩, ?_⟩,
    rfl, rfl, rfl, rfl, ?_⟩
  · simp only [NewHashMap, hneg, if_false]
  · show ((List.replicate c.toNat ([] : List (KeyValue T))).length : Int) = c
    simp only [List.length_replicate]
    omega
  · intro i hlt e he
    have hnil : (List.replicate c.toNat ([] : List (KeyValue T)))[i]? = some [] := by
      rw [List.getElem?_replicate, if_pos (by simpa using hlt)]
    rw [List.getElem?_eq_getElem hlt, Option.some.injEq] at hnil
    rw [hnil] at he
    cases he
  · simp [HashMap.entries]
  · simp
  · simp [HashMap.entries]

theorem HashMap.Inv.set_inv {hm : HashMap T} (h : hm.Inv sum64) (key : String) (value : T) :
    ∃ hm', hm.Set sum64 key value = some hm' ∧ hm'.Inv sum64 := by
  obtain ⟨hm', s1, s2, _, _, _, _, s7, s8⟩ := h.1.set_spec key value
  refine ⟨hm', s1, s2, ?_⟩
  rw [s7, s8, h.2]

theorem HashMap.Inv.put_inv {hm : HashMap T} (h : hm.Inv sum64) (key : String) (value : T) :
    ∃ hm' r, hm.Put sum64 key value = some (hm', .ok r) ∧ hm'.Inv sum64 := by
  obtain ⟨hm', s1, s2, _, _, _, _, s7, s8⟩ := h.1.store_spec key value
  obtain ⟨r, hr, _⟩ := h.1.put_snd key value
  have hfst := put_fst_eq_store sum64 hm key value
  rw [s1] at hfst
  cases hp : hm.Put sum64 key value with
  | none => rw [hp] at hfst; cases hfst
  | some p =>
    rw [hp] at hfst hr
    simp only [Option.map_some', Option.some.injEq] at hfst hr
    refine ⟨hm', r, ?_, s2, ?_⟩
    · rw [← hfst, ← hr]
    · rw [s7, s8, h.2]

theorem HashMap.Inv.delete_inv {hm : HashMap T} (h : hm.Inv sum64) (key : String) :
    ∃ hm' r, hm.Delete sum64 key = some (hm', r) ∧ hm'.Inv sum64 := by
  by_cases hs : hm.Stored key
  · obtain ⟨hm', d1, d2, _, _, _, _, d7, d8⟩ := h.1.delete_spec hs
    refine ⟨hm', _, d1, d2, ?_⟩
    rw [d7, d8, h.2]
  · exact ⟨hm, _, h.1.delete_of_not_stored hs, h⟩

theorem HashMap.Inv.clear_inv {hm : HashMap T} (h : hm.Inv sum64) : hm.Clear.Inv sum64 := by
  have hall : ∀ b ∈ hm.buckets.map (fun _ => ([] : List (KeyValue T))), b = [] := by
    intro b hb
    obtain ⟨_, _, rfl⟩ := List.mem_map.1 hb
    rfl
  have hflat : (hm.buckets.map (fun _ => ([] : List (KeyValue T)))).flatten = [] := by
    rw [List.flatten_eq_nil_iff]
    exact hall
  refine ⟨⟨h.1.1, ?_, ?_, ?_⟩, ?_⟩
  · simpa [HashMap.Clear] using h.1.2.1
  · intro i hlt e he
    have := hall _ (List.getElem_mem hlt)
    rw [this] at he
    cases he
  · show (List.map (·.Key) (hm.buckets.map (fun _ => ([] : List (KeyValue T)))).flatten).Nodup
    rw [hflat]
    exact List.nodup_nil
  · show (0 : Int) = ((hm.buckets.map (fun _ => ([] : List (KeyValue T)))).map List.length).sum
    rw [← length_flatten_eq_sum, hflat]
    rfl

theorem HashMap.Inv.resize_inv {hm : HashMap T} (h : hm.Inv sum64) :
    ∃ hm', hm.resize sum64 = some hm' ∧ hm'.Inv sum64 := by
  obtain ⟨hm', r1, r2, _, _, _, r6, r7⟩ := h.1.resize_wf
  refine ⟨hm', r1, r2, ?_⟩
  rw [r6, h.2, ← length_flatten_eq_sum, ← length_flatten_eq_sum]
  exact (congrArg Nat.cast r7.length_eq).symm

theorem cloneBucket_inv (bucket : List (KeyValue T)) {clone : HashMap T}
    (h : clone.Inv sum64) :
    ∃ clone', cloneBucket sum64 bucket clone = some clone' ∧ clone'.Inv sum64 := by
  induction bucket generalizing clone with
  | nil => exact ⟨clone, rfl, h⟩
  | cons kv rest ih =>
    obtain ⟨c1, h1, h2⟩ := h.set_inv kv.Key kv.Value
    obtain ⟨c2, k1, k2⟩ := ih h2
    exact ⟨c2, by simp only [cloneBucket, h1, Option.bind_eq_bind, Option.some_bind, k1], k2⟩

theorem cloneAll_inv (buckets : List (List (KeyValue T))) {clone : HashMap T}
    (h : clone.Inv sum64) :
    ∃ clone', cloneAll sum64 buckets clone = some clone' ∧ clone'.Inv sum64 := by
  induction buckets generalizing clone with
  | nil => exact ⟨clone, rfl, h⟩
  | cons bucket rest ih =>
    obtain ⟨c1, h1, h2⟩ := cloneBucket_inv bucket h
    obtain ⟨c2, k1, k2⟩ := ih h2
    exact ⟨c2, by simp only [cloneAll, h1, Option.bind_eq_bind, Option.some_bind, k1], k2⟩

theorem HashMap.Inv.clone_inv {hm : HashMap T} (h : hm.Inv sum64) (seed : Nat) :
    ∃ hm', hm.Clone sum64 seed = some hm' ∧ hm'.Inv sum64 := by
  obtain ⟨c0, h1, h2, _⟩ := newHashMap_spec T sum64 seed h.1.1
  obtain ⟨c1, k1, k2⟩ := cloneAll_inv hm.buckets h2
  exact ⟨c1, by simp only [HashMap.Clone, h1, Option.bind_eq_bind, Option.some_bind, k1], k2⟩

theorem reachable_inv {hm : HashMap T} (h : Reachable sum64 hm) : hm.Inv sum64 := by
  induction h with
  | new seed c hm hc hnew =>
    obtain ⟨hm0, h1, h2, _⟩ := newHashMap_spec T sum64 seed hc
    rw [hnew] at h1
    cases h1
    exact h2
  | set hm key value hm' _ hset ih =>
    obtain ⟨hm1, h1, h2⟩ := ih.set_inv key value
    rw [hset] at h1
    cases h1
    exact h2
  | put hm key value hm' r _ hput ih =>
    obtain ⟨hm1, r1, h1, h2⟩ := ih.put_inv key value
    rw [hput] at h1
    cases h1
    exact h2
  | delete hm key hm' r _ hdel ih =>
    obtain ⟨hm1, r1, h1, h2⟩ := ih.delete_inv key
    rw [hdel] at h1
    cases h1
    exact h2
  | clear hm _ ih => exact ih.clear_inv
  | clone hm seed hm' _ hclone ih =>
    obtain ⟨hm1, h1, h2⟩ := ih.clone_inv seed
    rw [hclone] at h1
    cases h1
    exact h2

end invariant

/-! ## The claims -/

section claims
variable {T : Type}

theorem HashMap.WF.put_spec {sum64 : Nat → String → Nat} {hm : HashMap T} (h : hm.WF sum64)
    (key : String) (value : T) :
    ∃ hm' r, hm.Put sum64 key value = some (hm', .ok r) ∧
      hm.store sum64 key value = some hm' ∧
      (∀ old, ({ Key := key, Value := old } : KeyValue T) ∈ hm.entries → r = old) ∧
      (¬ hm.Stored key → r = value) := by
  obtain ⟨hm', s1, _⟩ := h.store_spec key value
  obtain ⟨r, hr, hr1, hr2⟩ := h.put_snd key value
  have hfst := put_fst_eq_store sum64 hm key value
  rw [s1] at hfst
  cases hp : hm.Put sum64 key value with
  | none => rw [hp] at hfst; cases hfst
  | some p =>
    rw [hp] at hfst hr
    simp only [Option.map_some', Option.some.injEq] at hfst hr
    refine ⟨hm', r, ?_, s1, ?_, hr2⟩
    · rw [← hfst, ← hr]
    · intro old hold
      have hs : hm.Stored key := List.mem_map.2 ⟨_, hold, rfl⟩
      have := List.inj_on_of_nodup_map h.2.2.2 (hr1 hs) hold rfl
      exact congrArg KeyValue.Value this

/-- C1 (round trip). For every hash function and seed, every well-formed table
(at least one bucket, as many buckets as the capacity, every entry in the
bucket of its key, no key stored twice), every key `k` and value `v`: `Set(k, v)`
returns, and `Get(k)` on the table it leaves returns `v` with no error. The
capacity has doubled exactly when the load-factor test held, so both the
resizing and the non-resizing call are covered. -/
theorem set_then_get (sum64 : Nat → String → Nat) (hm : HashMap T) (h : hm.WF sum64)
    (k : String) (v : T) :
    ∃ hm', hm.Set sum64 k v = some hm' ∧ hm'.Get sum64 k = some (.ok v) ∧
      hm'.size = (if hm.loadFactorReached then hm.size * 2 else hm.size) := by
  obtain ⟨hm', s1, s2, s3, _, _, s6, _⟩ := h.set_spec k v
  exact ⟨hm', s1, (s2.get_ok_iff k v).2 ((s6 _).2 (Or.inl rfl)), s3⟩

/-- Witness of C1 on a full table, where the call resizes. -/
theorem set_then_get_witness :
    fullTable.WF exampleSum64 ∧ fullTable.loadFactorReached = true ∧
      ∃ hm', fullTable.Set exampleSum64 "bb" 2 = some hm' ∧
        hm'.Get exampleSum64 "bb" = some (.ok 2) ∧
        hm'.size = (if fullTable.loadFactorReached then fullTable.size * 2 else fullTable.size) :=
  ⟨by decide, by decide, set_then_get exampleSum64 fullTable (by decide) "bb" 2⟩

/-- C2 (update semantics). On a well-formed table, after `Set(k, v1)` then
`Set(k, v2)`, `Get(k)` returns `v2`, and `Len()` after the second call equals
`Len()` after the first: the second call adds no entry (the number of stored
entries is the same too), whether or not it resized. -/
theorem set_twice (sum64 : Nat → String → Nat) (hm : HashMap T) (h : hm.WF sum64)
    (k : String) (v1 v2 : T) :
    ∃ hm1 hm2, hm.Set sum64 k v1 = some hm1 ∧ hm1.Set sum64 k v2 = some hm2 ∧
      hm2.Get sum64 k = some (.ok v2) ∧ hm2.Len = hm1.Len ∧
      hm2.entries.length = hm1.entries.length := by
  obtain ⟨hm1, s1, s2, _, _, _, s6, _⟩ := h.set_spec k v1
  obtain ⟨hm2, t1, t2, _, _, _, t6, t7, t8⟩ := s2.set_spec k v2
  have hs : hm1.Stored k := List.mem_map.2 ⟨_, (s6 _).2 (Or.inl rfl), rfl⟩
  rw [if_pos hs] at t7 t8
  refine ⟨hm1, hm2, s1, t1, (t2.get_ok_iff k v2).2 ((t6 _).2 (Or.inl rfl)), ?_, ?_⟩
  · show hm2.elementCount = hm1.elementCount
    omega
  · unfold HashMap.entries
    rw [length_flatten_eq_sum, length_flatten_eq_sum]
    omega

/-- Witness of C2 on a full table: the first call resizes. -/
theorem set_twice_witness :
    fullTable.WF exampleSum64 ∧
      ∃ hm1 hm2, fullTable.Set exampleSum64 "bb" 2 = some hm1 ∧
        hm1.Set exampleSum64 "bb" 3 = some hm2 ∧
        hm2.Get exampleSum64 "bb" = some (.ok 3) ∧ hm2.Len = hm1.Len ∧
        hm2.entries.length = hm1.entries.length :=
  ⟨by decide, set_twice exampleSum64 fullTable (by decide) "bb" 2 3⟩

/-- C3 (Put return contract). On a well-formed table: when `k` is not stored,
`Put(k, v1)` returns `(v1, nil)` and `Len()` grows by 1; when `k` is stored
with value `vOld`, `Put(k, v2)` returns `(vOld, nil)`, leaves `Len()` unchanged
and a following `Get(k)` returns `v2`; in every case `Put` returns with a nil
error. -/
theorem put_contract (sum64 : Nat → String → Nat) (hm : HashMap T) (h : hm.WF sum64)
    (k : String) :
    (¬ hm.Stored k → ∀ v1, ∃ hm', hm.Put sum64 k v1 = some (hm', .ok v1) ∧
        hm'.Len = hm.Len + 1) ∧
    (∀ vOld, ({ Key := k, Value := vOld } : KeyValue T) ∈ hm.entries →
      ∀ v2, ∃ hm', hm.Put sum64 k v2 = some (hm', .ok vOld) ∧ hm'.Len = hm.Len ∧
        hm'.Get sum64 k = some (.ok v2)) ∧
    (∀ v, ∃ hm' r, hm.Put sum64 k v = some (hm', .ok r)) := by
  refine ⟨?_, ?_, ?_⟩
  · intro hs v1
    obtain ⟨hm', r, p1, p2, _, p4⟩ := h.put_spec k v1
    obtain ⟨hm'', s1, _, _, _, _, _, s7, _⟩ := h.store_spec k v1
    rw [p2] at s1
    cases s1
    rw [p4 hs] at p1
    refine ⟨hm', p1, ?_⟩
    show hm'.elementCount = hm.elementCount + 1
    rw [s7, if_neg hs]
  · intro vOld hold v2
    obtain ⟨hm', r, p1, p2, p3, _⟩ := h.put_spec k v2
    obtain ⟨hm'', s1, s2, _, _, _, s6, s7, _⟩ := h.store_spec k v2
    rw [p2] at s1
    cases s1
    have hs : hm.Stored k := List.mem_map.2 ⟨_, hold, rfl⟩
    rw [p3 vOld hold] at p1
    refine ⟨hm', p1, ?_, (s2.get_ok_iff k v2).2 ((s6 _).2 (Or.inl rfl))⟩
    show hm'.elementCount = hm.elementCount
    rw [s7, if_pos hs]
    omega
  · intro v
    obtain ⟨hm', r, p1, _⟩ := h.put_spec k v
    exact ⟨hm', r, p1⟩

/-- Witness of C3: a key that is absent and a key that is present. -/
theorem put_contract_witness :
    sparseTable.WF exampleSum64 ∧
      (∃ hm', sparseTable.Put exampleSum64 "ccc" 3 = some (hm', .ok 3) ∧
        hm'.Len = sparseTable.Len + 1) ∧
      (∃ hm', sparseTable.Put exampleSum64 "a" 5 = some (hm', .ok 1) ∧
        hm'.Len = sparseTable.Len ∧ hm'.Get exampleSum64 "a" = some (.ok 5)) :=
  ⟨by decide,
    (put_contract exampleSum64 sparseTable (by decide) "ccc").1 (by decide) 3,
    (put_contract exampleSum64 sparseTable (by decide) "a").2.1 1 (by decide) 5⟩

/-- C4 at a failing input: `NewHashMap(1)` followed by `Set("a", 1)` is a full
table (load factor 1); on it `Set("b", 2)` doubles the capacity and `Put("b", 2)`
leaves it at 1, so the two calls do not leave the same table. -/
theorem put_skips_resize :
    ((NewHashMap 0 1 : Option (HashMap Nat)).bind (fun hm => hm.Set exampleSum64 "a" 1)) =
        some fullTable ∧
      fullTable.loadFactorReached = true ∧
      (fullTable.Set exampleSum64 "b" 2).map (fun hm => hm.size) = some 2 ∧
      (fullTable.Put exampleSum64 "b" 2).map (fun r => r.1.size) = some 1 ∧
      (fullTable.Put exampleSum64 "b" 2).map (fun r => r.1) ≠ fullTable.Set exampleSum64 "b" 2 := by
  decide

/-- C5 (deletion). On a well-formed table that stores `k`, `Delete(k)` returns
nil; afterwards `Get(k)` returns the key-not-found error, `ContainsKey(k)` is
false and `Len()` is exactly one less than before. -/
theorem delete_then_absent (sum64 : Nat → String → Nat) (hm : HashMap T) (h : hm.WF sum64)
    (k : String) (hs : hm.Stored k) :
    ∃ hm', hm.Delete sum64 k = some (hm', .ok ()) ∧
      hm'.Get sum64 k = some (.error ("key not found: " ++ k)) ∧
      hm'.ContainsKey sum64 k = some false ∧ hm'.Len = hm.Len - 1 := by
  obtain ⟨hm', d1, d2, _, _, _, d6, d7, _⟩ := h.delete_spec hs
  have hns : ¬ hm'.Stored k := by
    intro hst
    obtain ⟨e, he, hk⟩ := List.mem_map.1 hst
    exact ((d6 e).1 he).2 hk
  refine ⟨hm', d1, d2.get_of_not_stored hns, ?_, d7⟩
  rw [d2.containsKey_eq, decide_eq_false hns]

/-- Witness of C5. -/
theorem delete_then_absent_witness :
    sparseTable.WF exampleSum64 ∧ sparseTable.Stored "bb" ∧
      ∃ hm', sparseTable.Delete exampleSum64 "bb" = some (hm', .ok ()) ∧
        hm'.Get exampleSum64 "bb" = some (.error ("key not found: " ++ "bb")) ∧
        hm'.ContainsKey exampleSum64 "bb" = some false ∧ hm'.Len = sparseTable.Len - 1 :=
  ⟨by decide, by decide, delete_then_absent exampleSum64 sparseTable (by decide) "bb" (by decide)⟩

/-- C6 (missing-key errors). On a well-formed table `Get(k)` returns an error
iff no entry with key `k` is stored, and so does `Delete(k)`; a `Delete` that
returns an error leaves the table exactly as it was (`Get` is a function of the
table and writes nothing). On `NewHashMap(4)`, `Delete("x")` returns the
key-not-found error and `Len()` stays 0. -/
theorem missing_key_errors (sum64 : Nat → String → Nat) (hm : HashMap T) (h : hm.WF sum64)
    (k : String) :
    ((∃ msg, hm.Get sum64 k = some (.error msg)) ↔ ¬ hm.Stored k) ∧
    ((∃ hm' msg, hm.Delete sum64 k = some (hm', .error msg)) ↔ ¬ hm.Stored k) ∧
    (∀ hm' msg, hm.Delete sum64 k = some (hm', .error msg) → hm' = hm) ∧
    (∀ seed, ∃ hm0 : HashMap T, NewHashMap seed 4 = some hm0 ∧ hm0.Len = 0 ∧
      ∃ hm1, hm0.Delete sum64 "x" = some (hm1, .error "key not found: x") ∧ hm1.Len = 0) := by
  have hdel : ∀ hm' msg, hm.Delete sum64 k = some (hm', .error msg) →
      ¬ hm.Stored k ∧ hm' = hm := by
    intro hm' msg hd
    by_cases hs : hm.Stored k
    · obtain ⟨hm'', d1, _⟩ := h.delete_spec hs
      rw [d1] at hd
      cases hd
    · rw [h.delete_of_not_stored hs] at hd
      simp only [Option.some.injEq, Prod.mk.injEq] at hd
      exact ⟨hs, hd.1.symm⟩
  refine ⟨h.get_error_iff k, ⟨?_, ?_⟩, fun hm' msg hd => (hdel hm' msg hd).2, ?_⟩
  · rintro ⟨hm', msg, hd⟩
    exact (hdel hm' msg hd).1
  · intro hs
    exact ⟨hm, _, h.delete_of_not_stored hs⟩
  · intro seed
    obtain ⟨hm0, n1, n2, _, _, _, n6, n7⟩ := newHashMap_spec T sum64 seed
      (show (1 : Int) ≤ 4 by decide)
    have hns : ¬ hm0.Stored "x" := by
      unfold HashMap.Stored
      rw [n7]
      simp
    exact ⟨hm0, n1, n6, hm0, n2.1.delete_of_not_stored hns, n6⟩

/-- Witness of C6: a stored key and a missing key of the same table. -/
theorem missing_key_errors_witness :
    sparseTable.WF exampleSum64 ∧
      ((∃ msg, sparseTable.Get exampleSum64 "zzz" = some (.error msg)) ↔
        ¬ sparseTable.Stored "zzz") ∧
      ¬ sparseTable.Stored "zzz" ∧
      ((∃ hm' msg, sparseTable.Delete exampleSum64 "a" = some (hm', .error msg)) ↔
        ¬ sparseTable.Stored "a") ∧
      sparseTable.Stored "a" :=
  ⟨by decide, (missing_key_errors exampleSum64 sparseTable (by decide) "zzz").1, by decide,
    (missing_key_errors exampleSum64 sparseTable (by decide) "a").2.1, by decide⟩

/-- C9 (resize correctness). For every hash function and seed, `resize` on a
well-formed table returns a table whose capacity is exactly twice the old one,
whose `elementCount` is unchanged, whose entries are a permutation of the old
entries, with as many buckets as the new capacity and every entry in the bucket
`hash(key) mod newCapacity`, and on which `Get(k)` returns what it returned
before, for every key `k`. -/
theorem resize_correct (sum64 : Nat → String → Nat) (hm : HashMap T) (h : hm.WF sum64) :
    ∃ hm', hm.resize sum64 = some hm' ∧ hm'.size = 2 * hm.size ∧
      hm'.elementCount = hm.elementCount ∧ List.Perm hm'.entries hm.entries ∧
      (hm'.buckets.length : Int) = hm'.size ∧ hm'.Placed sum64 ∧
      ∀ k, hm'.Get sum64 k = hm.Get sum64 k := by
  obtain ⟨hm', r1, r2, r3, _, _, r6, r7⟩ := h.resize_wf
  refine ⟨hm', r1, by omega, r6, r7, r2.2.1, r2.2.2.1, ?_⟩
  intro k
  by_cases hs : hm.Stored k
  · obtain ⟨v, hv⟩ := h.get_of_stored hs
    rw [hv, r2.get_ok_iff, r7.mem_iff, ← h.get_ok_iff]
    exact hv
  · rw [h.get_of_not_stored hs, r2.get_of_not_stored (fun hs' => hs ((stored_of_perm r7 k).1 hs'))]

/-- Witness of C9. -/
theorem resize_correct_witness :
    sparseTable.WF exampleSum64 ∧
      ∃ hm', sparseTable.resize exampleSum64 = some hm' ∧ hm'.size = 2 * sparseTable.size ∧
        hm'.elementCount = sparseTable.elementCount ∧
        List.Perm hm'.entries sparseTable.entries ∧
        (hm'.buckets.length : Int) = hm'.size ∧ hm'.Placed exampleSum64 ∧
        ∀ k, hm'.Get exampleSum64 k = sparseTable.Get exampleSum64 k :=
  ⟨by decide, resize_correct exampleSum64 sparseTable (by decide)⟩

/-- C10 (representation invariant). The predicate "capacity at least 1, exactly
`capacity` buckets, every entry in the bucket `hash(key) mod capacity`, no key
stored more than once in the whole table, `elementCount` equal to the number of
entries summed over all buckets" holds for `NewHashMap(c)` for every `c ≥ 1`, is
preserved by `Set`, `Put`, `Delete`, `Clear` and `resize` (each of which
returns), and so holds in every table reachable through the public
operations. -/
theorem representation_invariant (sum64 : Nat → String → Nat) :
    (∀ (seed : Nat) (c : Int), 1 ≤ c →
      ∃ hm : HashMap T, NewHashMap seed c = some hm ∧ hm.Inv sum64) ∧
    (∀ hm : HashMap T, hm.Inv sum64 →
      (∀ k v, ∃ hm', hm.Set sum64 k v = some hm' ∧ hm'.Inv sum64) ∧
      (∀ k v, ∃ hm' r, hm.Put sum64 k v = some (hm', .ok r) ∧ hm'.Inv sum64) ∧
      (∀ k, ∃ hm' r, hm.Delete sum64 k = some (hm', r) ∧ hm'.Inv sum64) ∧
      hm.Clear.Inv sum64 ∧
      (∃ hm', hm.resize sum64 = some hm' ∧ hm'.Inv sum64)) ∧
    (∀ hm : HashMap T, Reachable sum64 hm → hm.Inv sum64) := by
  refine ⟨?_, ?_, fun hm hr => reachable_inv hr⟩
  · intro seed c hc
    obtain ⟨hm, h1, h2, _⟩ := newHashMap_spec T sum64 seed hc
    exact ⟨hm, h1, h2⟩
  · intro hm h
    exact ⟨h.set_inv, h.put_inv, h.delete_inv, h.clear_inv, h.resize_inv⟩

end claims

/-! ## The load factor along `Set` -/

section loadclaims
variable {T : Type} {sum64 : Nat → String → Nat}

/-- One `Set` call keeps the table at most one entry above the threshold. -/
theorem set_keeps_load {hm : HashMap T} (h : hm.Inv sum64) (ht : hm.threshold = F64.c0_7)
    (hj : hm.size < 2 ^ 53 → 10 * (hm.elementCount - 1) < 7 * hm.size) (key : String)
    (value : T) :
    ∃ hm', hm.Set sum64 key value = some hm' ∧ hm'.Inv sum64 ∧ hm'.threshold = F64.c0_7 ∧
      (hm'.size < 2 ^ 53 → 10 * (hm'.elementCount - 1) < 7 * hm'.size) ∧
      (hm'.size = hm.size ∨ hm'.size = 2 * hm.size) := by
  obtain ⟨hm', s1, s2, s3, _, s5, _, s7, s8⟩ := h.1.set_spec key value
  have hinv : hm'.Inv sum64 := ⟨s2, by rw [s7, s8, h.2]⟩
  have he0 : 0 ≤ hm.elementCount := by
    rw [h.2]
    exact Int.natCast_nonneg _
  have hs0 := h.1.1
  have hcount : hm'.elementCount ≤ hm.elementCount + 1 := by
    rw [s7]
    split <;> omega
  refine ⟨hm', s1, hinv, s5.trans ht, ?_, ?_⟩
  · intro hlt
    by_cases hl : hm.loadFactorReached = true
    · rw [if_pos hl] at s3
      have := hj (by omega)
      by_cases h1 : hm.size = 1
      · omega
      · omega
    · rw [if_neg hl] at s3
      have hj' := hj (by omega)
      have hnot : ¬ 7 * hm.size ≤ 10 * hm.elementCount := fun hle =>
        hl (loadFactorReached_of_le ht he0 (by omega) hs0 (by omega) hle)
      omega
  · by_cases hl : hm.loadFactorReached = true
    · rw [if_pos hl] at s3
      exact Or.inr (by omega)
    · rw [if_neg hl] at s3
      exact Or.inl s3

theorem setAll_keeps_load (sum64 : Nat → String → Nat) (ops : List (String × T)) {hm : HashMap T}
    (h : hm.Inv sum64)
    (ht : hm.threshold = F64.c0_7)
    (hj : hm.size < 2 ^ 53 → 10 * (hm.elementCount - 1) < 7 * hm.size) :
    ∃ hm', setAll sum64 hm ops = some hm' ∧ hm'.Inv sum64 ∧ hm'.threshold = F64.c0_7 ∧
      (hm'.size < 2 ^ 53 → 10 * (hm'.elementCount - 1) < 7 * hm'.size) := by
  induction ops generalizing hm with
  | nil => exact ⟨hm, rfl, h, ht, hj⟩
  | cons op rest ih =>
    obtain ⟨key, value⟩ := op
    obtain ⟨hm1, s1, s2, s3, s4, _⟩ := set_keeps_load h ht hj key value
    obtain ⟨hm', r1, r2⟩ := ih s2 s3 s4
    exact ⟨hm', by simp only [setAll, s1, Option.bind_eq_bind, Option.some_bind, r1], r2⟩

/-- C7 fails as stated: `NewHashMap(1)` followed by `Set("a", 1)` holds one
entry in one bucket, so its load factor is 1 (the test `elementCount / size ≥
0.7` holds, in `float64` and exactly), and the call has not doubled the
capacity. -/
theorem load_factor_counterexample :
    ∃ hm hm' : HashMap Nat, NewHashMap 0 1 = some hm ∧
      hm.Set exampleSum64 "a" 1 = some hm' ∧ hm'.loadFactorReached = true ∧
      ¬ (10 * hm'.elementCount < 7 * hm'.size) ∧ hm'.size ≠ 2 * hm.size :=
  ⟨⟨[[]], 1, F64.c0_7, 0, 0⟩, fullTable, by decide, by decide, by decide, by decide, by decide⟩

/-- C7 amended. For every initial capacity `c ≥ 1` and every finite sequence of
`Set` calls applied to `NewHashMap(c)`, each call returns and leaves a table
with `(elementCount - 1) / capacity < 0.7`, as long as the capacity is below
`2 ^ 53`: the table is never more than one entry above the threshold, whether
the call doubled the capacity or kept it. -/
theorem load_factor_after_set (sum64 : Nat → String → Nat) (seed : Nat) (c : Int) (hc : 1 ≤ c)
    (ops : List (String × T)) (k : String) (v : T) :
    ∃ hm hm', (NewHashMap seed c).bind (fun hm0 => setAll sum64 hm0 ops) = some hm ∧
      hm.Set sum64 k v = some hm' ∧
      (hm'.size < 2 ^ 53 → 10 * (hm'.elementCount - 1) < 7 * hm'.size) ∧
      (hm'.size = hm.size ∨ hm'.size = 2 * hm.size) := by
  obtain ⟨hm0, n1, n2, n3, _, n5, n6, _⟩ := newHashMap_spec T sum64 seed hc
  obtain ⟨hm, r1, r2, r3, r4⟩ := setAll_keeps_load sum64 ops n2 n5
    (fun _ => by rw [n6]; omega)
  obtain ⟨hm', s1, _, _, s4, s5⟩ := set_keeps_load r2 r3 r4 k v
  exact ⟨hm, hm', by rw [n1, Option.some_bind, r1], s1, s4, s5⟩

/-- Witness of the amended C7: `NewHashMap(1)`, `Set("a", 1)`, `Set("bb", 2)`. -/
theorem load_factor_after_set_witness :
    (1 : Int) ≤ 1 ∧
      ∃ hm hm' : HashMap Nat,
        (NewHashMap 0 1).bind (fun hm0 => setAll exampleSum64 hm0 [("a", 1)]) = some hm ∧
        hm.Set exampleSum64 "bb" 2 = some hm' ∧
        (hm'.size < 2 ^ 53 → 10 * (hm'.elementCount - 1) < 7 * hm'.size) ∧
        (hm'.size = hm.size ∨ hm'.size = 2 * hm.size) :=
  ⟨by decide, load_factor_after_set exampleSum64 0 1 (by decide) [("a", 1)] "bb" 2⟩

/-- C8 fails as stated: on the empty `NewHashMap(1)` the key `"a"` is new and
`(elementCount + 1) / capacity = 1 ≥ 0.7`, yet `Set("a", 1)` keeps the capacity
at 1. -/
theorem resize_trigger_counterexample :
    ∃ hm hm' : HashMap Nat, NewHashMap 0 1 = some hm ∧ ¬ hm.Stored "a" ∧
      F64.ge (F64.div (F64.ofInt (hm.elementCount + 1)) (F64.ofInt hm.size)) hm.threshold = true ∧
      7 * hm.size ≤ 10 * (hm.elementCount + 1) ∧
      hm.Set exampleSum64 "a" 1 = some hm' ∧ hm'.size = hm.size ∧ hm'.size ≠ 2 * hm.size :=
  ⟨⟨[[]], 1, F64.c0_7, 0, 0⟩, fullTable, by decide, by decide, by decide, by decide, by decide,
    by decide, by decide⟩

/-- C8 amended. On a well-formed table, for a key `k` that is not stored,
`Set(k, v)` doubles the capacity exactly when the load factor of the table it
is called on reaches the threshold, `float64(elementCount) / float64(size) >=
threshold` with the values before the call (the new key is not counted): then
all entries are rehashed by `resize` and the insertion runs on the resized
table; otherwise the capacity after the call is the capacity before. In both
cases one entry is added. For the threshold 0.7 of `NewHashMap`, a count below
`2 ^ 53` and a capacity below `2 ^ 54 / 18`, the test is the exact comparison
`elementCount / capacity ≥ 0.7`. -/
theorem set_resize_trigger (sum64 : Nat → String → Nat) (hm : HashMap T) (h : hm.WF sum64)
    (k : String) (hk : ¬ hm.Stored k) (v : T) :
    ∃ hm', hm.Set sum64 k v = some hm' ∧
      (hm'.size = 2 * hm.size ↔ hm.loadFactorReached = true) ∧
      (hm.loadFactorReached = true →
        ∃ hm1, hm.resize sum64 = some hm1 ∧ hm1.size = 2 * hm.size ∧
          hm1.store sum64 k v = some hm') ∧
      (hm.loadFactorReached = false → hm'.size = hm.size ∧ hm.store sum64 k v = some hm') ∧
      hm'.elementCount = hm.elementCount + 1 ∧
      (hm.threshold = F64.c0_7 → 0 ≤ hm.elementCount → hm.elementCount < 2 ^ 53 →
        18 * hm.size < 2 ^ 54 → (hm'.size = 2 * hm.size ↔ 7 * hm.size ≤ 10 * hm.elementCount)) := by
  obtain ⟨hm', s1, _, s3, _, _, _, s7, _⟩ := h.set_spec k v
  have hs0 := h.1
  have hiff : hm'.size = 2 * hm.size ↔ hm.loadFactorReached = true := by
    by_cases hl : hm.loadFactorReached = true
    · rw [if_pos hl] at s3
      exact ⟨fun _ => hl, fun _ => by omega⟩
    · rw [if_neg hl] at s3
      exact ⟨fun h2 => by omega, fun h2 => absurd h2 hl⟩
  have hset : hm.Set sum64 k v =
      (if hm.loadFactorReached then hm.resize sum64 else some hm).bind
        (fun hm => hm.store sum64 k v) := rfl
  refine ⟨hm', s1, hiff, ?_, ?_, ?_, ?_⟩
  · intro hl
    obtain ⟨hm1, r1, _, r3, _⟩ := h.resize_wf
    refine ⟨hm1, r1, by omega, ?_⟩
    rw [hset, if_pos hl, r1, Option.some_bind] at s1
    exact s1
  · intro hl
    have hl' : ¬ hm.loadFactorReached = true := by simp [hl]
    rw [if_neg hl'] at s3
    rw [hset, if_neg hl', Option.some_bind] at s1
    exact ⟨s3, s1⟩
  · rw [s7, if_neg hk]
  · intro ht he0 he hs
    rw [hiff, loadFactorReached_iff_exact ht he0 he hs0 hs]

/-- Witness of the amended C8: a full table and the new key `"bb"`. -/
theorem set_resize_trigger_witness :
    fullTable.WF exampleSum64 ∧ ¬ fullTable.Stored "bb" ∧
      ∃ hm', fullTable.Set exampleSum64 "bb" 2 = some hm' ∧
        (hm'.size = 2 * fullTable.size ↔ fullTable.loadFactorReached = true) ∧
        (fullTable.loadFactorReached = true →
          ∃ hm1, fullTable.resize exampleSum64 = some hm1 ∧ hm1.size = 2 * fullTable.size ∧
            hm1.store exampleSum64 "bb" 2 = some hm') ∧
        (fullTable.loadFactorReached = false →
          hm'.size = fullTable.size ∧ fullTable.store exampleSum64 "bb" 2 = some hm') ∧
        hm'.elementCount = fullTable.elementCount + 1 ∧
        (fullTable.threshold = F64.c0_7 → 0 ≤ fullTable.elementCount →
          fullTable.elementCount < 2 ^ 53 → 18 * fullTable.size < 2 ^ 54 →
          (hm'.size = 2 * fullTable.size ↔ 7 * fullTable.size ≤ 10 * fullTable.elementCount)) :=
  ⟨by decide, by decide, set_resize_trigger exampleSum64 fullTable (by decide) "bb" (by decide) 2⟩

end loadclaims

/-! ## Enumeration -/

section enumeration
variable {T : Type} {sum64 : Nat → String → Nat}

theorem foldl_append_keys (bucket : List (KeyValue T)) (keys : List String) :
    bucket.foldl (fun keys kv => keys ++ [kv.Key]) keys = keys ++ bucket.map (·.Key) := by
  induction bucket generalizing keys with
  | nil => simp
  | cons kv rest ih => simp [List.foldl_cons, ih]

theorem foldl_append_values (bucket : List (KeyValue T)) (values : List T) :
    bucket.foldl (fun values kv => values ++ [kv.Value]) values =
      values ++ bucket.map (·.Value) := by
  induction bucket generalizing values with
  | nil => simp
  | cons kv rest ih => simp [List.foldl_cons, ih]

theorem keys_eq_map_entries (hm : HashMap T) : hm.Keys = hm.entries.map (·.Key) := by
  have key : ∀ (L : List (List (KeyValue T))) (keys : List String),
      L.foldl (fun keys bucket => bucket.foldl (fun keys kv => keys ++ [kv.Key]) keys) keys =
        keys ++ L.flatten.map (·.Key) := by
    intro L
    induction L with
    | nil => intro keys; simp
    | cons b L ih =>
      intro keys
      rw [List.foldl_cons, ih, foldl_append_keys, List.flatten_cons, List.map_append,
        List.append_assoc]
  simpa [HashMap.Keys, HashMap.entries] using key hm.buckets []

theorem values_eq_map_entries (hm : HashMap T) : hm.Values = hm.entries.map (·.Value) := by
  have key : ∀ (L : List (List (KeyValue T))) (values : List T),
      L.foldl (fun values bucket => bucket.foldl (fun values kv => values ++ [kv.Value]) values)
          values = values ++ L.flatten.map (·.Value) := by
    intro L
    induction L with
    | nil => intro values; simp
    | cons b L ih =>
      intro values
      rw [List.foldl_cons, ih, foldl_append_values, List.flatten_cons, List.map_append,
        List.append_assoc]
  simpa [HashMap.Values, HashMap.entries] using key hm.buckets []

theorem HashMap.WF.get_of_mem {hm : HashMap T} (h : hm.WF sum64) {e : KeyValue T}
    (he : e ∈ hm.entries) : hm.Get sum64 e.Key = some (.ok e.Value) :=
  (h.get_ok_iff e.Key e.Value).2 he

theorem HashMap.WF.containsKey_true_iff {hm : HashMap T} (h : hm.WF sum64) (key : String) :
    hm.ContainsKey sum64 key = some true ↔ hm.Stored key := by
  rw [h.containsKey_eq]
  simp

theorem HashMap.WF.get_ok_iff_stored {hm : HashMap T} (h : hm.WF sum64) (key : String) :
    (∃ v, hm.Get sum64 key = some (.ok v)) ↔ hm.Stored key := by
  constructor
  · rintro ⟨v, hv⟩
    exact List.mem_map.2 ⟨_, (h.get_ok_iff key v).1 hv, rfl⟩
  · exact h.get_of_stored

/-- C11 (Keys/Values snapshot). On a table that satisfies the representation
invariant, `Keys()` is the concatenation, by ascending bucket index and in
bucket order, of the keys of all entries, and `Values()` the same concatenation
of their values. Hence both have length `Len()`, `Keys()` has no duplicate, a
key occurs in `Keys()` iff `ContainsKey` is true iff `Get` succeeds, and at every
position `i`, `Get(Keys()[i])` returns `Values()[i]`. -/
theorem keys_values_snapshot (sum64 : Nat → String → Nat) (hm : HashMap T)
    (h : hm.Inv sum64) :
    hm.Keys = hm.buckets.flatten.map (·.Key) ∧
    hm.Values = hm.buckets.flatten.map (·.Value) ∧
    (hm.Keys.length : Int) = hm.Len ∧ (hm.Values.length : Int) = hm.Len ∧
    hm.Keys.Nodup ∧
    (∀ k, (k ∈ hm.Keys ↔ hm.ContainsKey sum64 k = some true) ∧
      (hm.ContainsKey sum64 k = some true ↔ ∃ v, hm.Get sum64 k = some (.ok v))) ∧
    (∀ (i : Nat) (k : String) (v : T), hm.Keys[i]? = some k → hm.Values[i]? = some v →
      hm.Get sum64 k = some (.ok v)) := by
  have hk := keys_eq_map_entries hm
  have hv := values_eq_map_entries hm
  have hlen : (hm.entries.length : Int) = hm.elementCount := by
    rw [h.2]
    exact congrArg Nat.cast (length_flatten_eq_sum hm.buckets)
  refine ⟨hk, hv, ?_, ?_, ?_, ?_, ?_⟩
  · rw [hk, List.length_map]
    exact hlen
  · rw [hv, List.length_map]
    exact hlen
  · rw [hk]
    exact h.1.2.2.2
  · intro k
    refine ⟨?_, ?_⟩
    · rw [h.1.containsKey_true_iff, hk]
      rfl
    · rw [h.1.containsKey_true_iff, h.1.get_ok_iff_stored]
  · intro i k v hki hvi
    rw [hk, List.getElem?_map] at hki
    rw [hv, List.getElem?_map] at hvi
    cases he : hm.entries[i]? with
    | none => rw [he] at hki; cases hki
    | some e =>
      rw [he] at hki hvi
      simp only [Option.map_some', Option.some.injEq] at hki hvi
      rw [← hki, ← hvi]
      exact h.1.get_of_mem (List.getElem?_mem he)

/-- Witness of C11. -/
theorem keys_values_snapshot_witness :
    sparseTable.Inv exampleSum64 ∧ sparseTable.Keys = ["a", "bb"] ∧
      sparseTable.Values = [1, 2] ∧
      sparseTable.Keys = sparseTable.buckets.flatten.map (·.Key) ∧
      sparseTable.Values = sparseTable.buckets.flatten.map (·.Value) ∧
      (sparseTable.Keys.length : Int) = sparseTable.Len ∧
      (sparseTable.Values.length : Int) = sparseTable.Len ∧
      sparseTable.Keys.Nodup ∧
      (∀ k, (k ∈ sparseTable.Keys ↔ sparseTable.ContainsKey exampleSum64 k = some true) ∧
        (sparseTable.ContainsKey exampleSum64 k = some true ↔
          ∃ v, sparseTable.Get exampleSum64 k = some (.ok v))) ∧
      (∀ (i : Nat) (k : String) (v : Nat), sparseTable.Keys[i]? = some k →
        sparseTable.Values[i]? = some v → sparseTable.Get exampleSum64 k = some (.ok v)) :=
  ⟨by decide, by decide, by decide, keys_values_snapshot exampleSum64 sparseTable (by decide)⟩

end enumeration

/-! ## Clearing -/

section clearing
variable {T : Type} {sum64 : Nat → String → Nat}

theorem clear_entries (hm : HashMap T) : hm.Clear.entries = [] := by
  unfold HashMap.entries
  rw [List.flatten_eq_nil_iff]
  intro b hb
  obtain ⟨_, _, rfl⟩ := List.mem_map.1 hb
  rfl

theorem HashMap.Shaped.hash_index {hm : HashMap T} (h : hm.Shaped) (sum64 : Nat → String → Nat)
    (key : String) :
    ∃ (i : Nat) (b : List (KeyValue T)), hm.hash sum64 key = some i ∧ i < hm.buckets.length ∧
      hm.buckets[i]? = some b := by
  obtain ⟨i, hi, hlt⟩ := bucketIndex_of_pos sum64 hm.seed key h.1
  have hlen : i < hm.buckets.length := by
    have := h.2
    omega
  exact ⟨i, hm.buckets[i], hi, hlen, List.getElem?_eq_getElem hlen⟩

/-- C12 fails as stated: `NewHashMap(0)` is a table; after `Clear()` its `Get`
and `ContainsKey` divide by the zero capacity and panic, they do not report a
missing key. -/
theorem clear_counterexample :
    ∃ hm : HashMap Nat, NewHashMap 0 0 = some hm ∧ hm.Clear.Len = 0 ∧
      (hm.Clear.Get exampleSum64 "x").isNone = true ∧
      (hm.Clear.ContainsKey exampleSum64 "x").isNone = true :=
  ⟨⟨[], 0, F64.c0_7, 0, 0⟩, by decide, by decide, by decide, by decide⟩

/-- C12 amended. For every table, after `Clear()` every bucket is empty,
`Len()` is 0, `IsEmpty()` is true, `Keys()` and `Values()` are empty, and the
capacity, the number of buckets and the hash seed are the same as before; in
every table `IsEmpty()` equals `Len() == 0`. For every table with at least
one bucket and as many buckets as its capacity, after `Clear()` `Get(k)`
returns the key-not-found error and `ContainsKey(k)` is false for every key
`k`. -/
theorem clear_spec (sum64 : Nat → String → Nat) (hm : HashMap T) :
    (∀ b ∈ hm.Clear.buckets, b = []) ∧ hm.Clear.Len = 0 ∧ hm.Clear.IsEmpty = true ∧
    hm.Clear.Keys = [] ∧ hm.Clear.Values = [] ∧
    hm.Clear.size = hm.size ∧ hm.Clear.buckets.length = hm.buckets.length ∧
    hm.Clear.seed = hm.seed ∧
    hm.IsEmpty = decide (hm.Len = 0) ∧
    (hm.Shaped → ∀ k, hm.Clear.Get sum64 k = some (.error ("key not found: " ++ k)) ∧
      hm.Clear.ContainsKey sum64 k = some false) := by
  refine ⟨?_, rfl, rfl, ?_, ?_, rfl, ?_, rfl, rfl, ?_⟩
  · intro b hb
    obtain ⟨_, _, rfl⟩ := List.mem_map.1 hb
    rfl
  · rw [keys_eq_map_entries, clear_entries]
    rfl
  · rw [values_eq_map_entries, clear_entries]
    rfl
  · simp [HashMap.Clear]
  · intro hs k
    have hs' : hm.Clear.Shaped := ⟨hs.1, by simpa [HashMap.Clear] using hs.2⟩
    obtain ⟨i, b, hi, _, hb⟩ := hs'.hash_index sum64 k
    have hnil : b = [] := by
      obtain ⟨_, _, rfl⟩ := List.mem_map.1 (List.getElem?_mem hb)
      rfl
    subst hnil
    constructor
    · simp [HashMap.Get, hi, hb]
    · simp [HashMap.ContainsKey, hi, hb]

/-- Witness of the amended C12 on a table with four buckets. -/
theorem clear_spec_witness :
    sparseTable.Shaped ∧ sparseTable.Clear.buckets = [[], [], [], []] ∧
      ∀ k, sparseTable.Clear.Get exampleSum64 k = some (.error ("key not found: " ++ k)) ∧
        sparseTable.Clear.ContainsKey exampleSum64 k = some false :=
  ⟨by decide, by decide, (clear_spec exampleSum64 sparseTable).2.2.2.2.2.2.2.2.2 (by decide)⟩

end clearing

/-! ## Cloning -/

section cloning
variable {T : Type} {sum64 : Nat → String → Nat}

theorem cloneBucket_append (l₁ l₂ : List (KeyValue T)) (clone : HashMap T) :
    cloneBucket sum64 (l₁ ++ l₂) clone =
      (cloneBucket sum64 l₁ clone).bind (cloneBucket sum64 l₂) := by
  induction l₁ generalizing clone with
  | nil => rfl
  | cons kv rest ih =>
    simp only [List.cons_append, cloneBucket, Option.bind_eq_bind]
    cases clone.Set sum64 kv.Key kv.Value with
    | none => rfl
    | some c => exact ih c

theorem cloneAll_eq_cloneBucket (buckets : List (List (KeyValue T))) (clone : HashMap T) :
    cloneAll sum64 buckets clone = cloneBucket sum64 buckets.flatten clone := by
  induction buckets generalizing clone with
  | nil => rfl
  | cons b rest ih =>
    simp only [cloneAll, List.flatten_cons, cloneBucket_append, Option.bind_eq_bind]
    cases cloneBucket sum64 b clone with
    | none => rfl
    | some c => simp only [Option.some_bind, ih]

/-- The entries of a table after the `Set` calls of `Clone` for the entries
`l`. -/
theorem cloneBucket_entries (sum64 : Nat → String → Nat) (l : List (KeyValue T))
    {clone : HashMap T} (h : clone.Inv sum64)
    (hn : (l.map (·.Key)).Nodup) :
    ∃ clone', cloneBucket sum64 l clone = some clone' ∧ clone'.Inv sum64 ∧
      clone'.seed = clone.seed ∧ clone'.threshold = clone.threshold ∧
      ∀ e, e ∈ clone'.entries ↔ e ∈ l ∨ (e ∈ clone.entries ∧ e.Key ∉ l.map (·.Key)) := by
  induction l generalizing clone with
  | nil => exact ⟨clone, rfl, h, rfl, rfl, fun e => by simp⟩
  | cons kv rest ih =>
    rw [List.map_cons, List.nodup_cons] at hn
    obtain ⟨c1, s1, s2, _, s4, s5, s6, s7, s8⟩ := h.1.set_spec kv.Key kv.Value
    have hinv : c1.Inv sum64 := ⟨s2, by rw [s7, s8, h.2]⟩
    obtain ⟨c2, k1, k2, k3, k4, k5⟩ := ih hinv hn.2
    refine ⟨c2, ?_, k2, k3.trans s4, k4.trans s5, ?_⟩
    · simp only [cloneBucket, s1, Option.bind_eq_bind, Option.some_bind, k1]
    · intro e
      rw [k5 e, s6 e]
      simp only [List.mem_cons, List.map_cons, not_or]
      constructor
      · rintro (he | ⟨rfl | ⟨he, hne⟩, hnr⟩)
        · exact Or.inl (Or.inr he)
        · exact Or.inl (Or.inl rfl)
        · exact Or.inr ⟨he, hne, hnr⟩
      · rintro ((rfl | he) | ⟨he, hne, hnr⟩)
        · exact Or.inr ⟨Or.inl rfl, hn.1⟩
        · exact Or.inl he
        · exact Or.inr ⟨Or.inr ⟨he, hne⟩, hnr⟩

/-- C13 (Clone contents). For every table that satisfies the representation
invariant and every seed drawn for the clone, `Clone()` returns a table that
holds exactly the key/value pairs of the source: its entries are a permutation
of the source's, `Get(k)` on the clone returns what `Get(k)` returns on the
source (value or error) for every key `k`, and the two `Len()` are equal.
(`Clone` is a function of the source and writes none of its fields.) -/
theorem clone_contents (sum64 : Nat → String → Nat) (hm : HashMap T) (h : hm.Inv sum64)
    (seed : Nat) :
    ∃ clone, hm.Clone sum64 seed = some clone ∧ clone.seed = seed ∧
      List.Perm clone.entries hm.entries ∧
      (∀ k, clone.Get sum64 k = hm.Get sum64 k) ∧ clone.Len = hm.Len := by
  obtain ⟨c0, n1, n2, _, n4, _, _, n7⟩ := newHashMap_spec T sum64 seed h.1.1
  obtain ⟨c1, k1, k2, k3, _, k5⟩ := cloneBucket_entries sum64 hm.entries n2 h.1.2.2.2
  have hmem : ∀ e, e ∈ c1.entries ↔ e ∈ hm.entries := by
    intro e
    rw [k5 e, n7]
    simp
  have hperm : List.Perm c1.entries hm.entries :=
    (List.perm_ext_iff_of_nodup (List.Nodup.of_map _ k2.1.2.2.2)
      (List.Nodup.of_map _ h.1.2.2.2)).2 hmem
  refine ⟨c1, ?_, k3.trans n4, hperm, ?_, ?_⟩
  · simp only [HashMap.Clone, n1, Option.bind_eq_bind, Option.some_bind,
      cloneAll_eq_cloneBucket]
    exact k1
  · intro k
    by_cases hs : hm.Stored k
    · obtain ⟨v, hv⟩ := h.1.get_of_stored hs
      rw [hv, k2.1.get_ok_iff, hmem, ← h.1.get_ok_iff]
      exact hv
    · rw [h.1.get_of_not_stored hs,
        k2.1.get_of_not_stored (fun hs' => hs ((stored_of_perm hperm k).1 hs'))]
  · show c1.elementCount = hm.elementCount
    rw [k2.2, h.2, ← length_flatten_eq_sum, ← length_flatten_eq_sum]
    exact congrArg Nat.cast hperm.length_eq

/-- Witness of C13: a clone with another seed. -/
theorem clone_contents_witness :
    sparseTable.Inv exampleSum64 ∧
      ∃ clone, sparseTable.Clone exampleSum64 7 = some clone ∧ clone.seed = 7 ∧
        List.Perm clone.entries sparseTable.entries ∧
        (∀ k, clone.Get exampleSum64 k = sparseTable.Get exampleSum64 k) ∧
        clone.Len = sparseTable.Len :=
  ⟨by decide, clone_contents exampleSum64 sparseTable (by decide) 7⟩

end cloning

/-! ## Frame lemmas -/

section frame
variable {T : Type} {sum64 : Nat → String → Nat}

/-- Two well-formed tables with the same entries of key `key` answer `Get` and
`ContainsKey` for `key` alike. -/
theorem lookup_congr {hm hm' : HashMap T} (h : hm.WF sum64) (h' : hm'.WF sum64) {key : String}
    (hmem : ∀ e : KeyValue T, e.Key = key → (e ∈ hm'.entries ↔ e ∈ hm.entries)) :
    hm'.Get sum64 key = hm.Get sum64 key ∧
      hm'.ContainsKey sum64 key = hm.ContainsKey sum64 key := by
  have hst : hm'.Stored key ↔ hm.Stored key := by
    constructor
    · intro hs
      obtain ⟨e, he, hk⟩ := List.mem_map.1 hs
      exact List.mem_map.2 ⟨e, (hmem e hk).1 he, hk⟩
    · intro hs
      obtain ⟨e, he, hk⟩ := List.mem_map.1 hs
      exact List.mem_map.2 ⟨e, (hmem e hk).2 he, hk⟩
  refine ⟨?_, ?_⟩
  · by_cases hs : hm.Stored key
    · obtain ⟨v, hv⟩ := h.get_of_stored hs
      rw [hv, h'.get_ok_iff, hmem _ rfl, ← h.get_ok_iff]
      exact hv
    · rw [h.get_of_not_stored hs, h'.get_of_not_stored (fun hs' => hs (hst.1 hs'))]
  · rw [h.containsKey_eq, h'.containsKey_eq]
    simp only [hst]

theorem loadFactorReached_of_fields {hm : HashMap T} {e s : Int} (he : hm.elementCount = e)
    (hs : hm.size = s) (ht : hm.threshold = F64.c0_7) :
    hm.loadFactorReached = F64.ge (F64.div (F64.ofInt e) (F64.ofInt s)) F64.c0_7 := by
  unfold HashMap.loadFactorReached
  rw [he, hs, ht]

/-- `Set` of a key that is not stored, on a table that satisfies the
representation invariant. -/
theorem HashMap.Inv.set_new_key {hm : HashMap T} (h : hm.Inv sum64) {key : String}
    (hk : ¬ hm.Stored key) (value : T) :
    ∃ hm', hm.Set sum64 key value = some hm' ∧ hm'.Inv sum64 ∧
      hm'.threshold = hm.threshold ∧
      hm'.size = (if hm.loadFactorReached then hm.size * 2 else hm.size) ∧
      hm'.elementCount = hm.elementCount + 1 ∧
      (∀ e, e ∈ hm'.entries ↔ e = { Key := key, Value := value } ∨ e ∈ hm.entries) ∧
      (∀ k, hm'.Stored k ↔ k = key ∨ hm.Stored k) := by
  obtain ⟨hm', s1, s2, s3, _, s5, s6, s7, s8⟩ := h.1.set_spec key value
  have hmem : ∀ e, e ∈ hm'.entries ↔ e = { Key := key, Value := value } ∨ e ∈ hm.entries := by
    intro e
    rw [s6 e]
    constructor
    · rintro (he | ⟨he, _⟩)
      · exact Or.inl he
      · exact Or.inr he
    · rintro (he | he)
      · exact Or.inl he
      · exact Or.inr ⟨he, fun hke => hk (List.mem_map.2 ⟨e, he, hke⟩)⟩
  refine ⟨hm', s1, ⟨s2, by rw [s7, s8, h.2]⟩, s5, s3, by rw [s7, if_neg hk], hmem, ?_⟩
  intro k
  constructor
  · intro hs
    obtain ⟨e, he, rfl⟩ := List.mem_map.1 hs
    rcases (hmem e).1 he with rfl | he'
    · exact Or.inl rfl
    · exact Or.inr (List.mem_map.2 ⟨e, he', rfl⟩)
  · rintro (rfl | hs)
    · exact List.mem_map.2 ⟨_, (hmem _).2 (Or.inl rfl), rfl⟩
    · obtain ⟨e, he, rfl⟩ := List.mem_map.1 hs
      exact List.mem_map.2 ⟨e, (hmem e).2 (Or.inr he), rfl⟩

end frame

section scenario

/-- C14 (concrete scenario). For every hash function and seed, from
`NewHashMap(2)` the calls `Set("a", 1)`, `Set("b", 2)`, `Set("c", 3)` return; the
capacity stays 2 after the first and the second call and is 4 after the third
(one resize over the three calls); afterwards `Len()` is 3, `Get` returns 1, 2
and 3 for `"a"`, `"b"` and `"c"`, and `Keys()` is a permutation of
`["a", "b", "c"]` with no duplicate. -/
theorem three_sets_scenario (sum64 : Nat → String → Nat) (seed : Nat) :
    ∃ hm0 hm1 hm2 hm3 : HashMap Nat, NewHashMap seed 2 = some hm0 ∧
      hm0.Set sum64 "a" 1 = some hm1 ∧ hm1.Set sum64 "b" 2 = some hm2 ∧
      hm2.Set sum64 "c" 3 = some hm3 ∧
      hm0.size = 2 ∧ hm1.size = 2 ∧ hm2.size = 2 ∧ hm3.size = 4 ∧ hm3.Len = 3 ∧
      hm3.Get sum64 "a" = some (.ok 1) ∧ hm3.Get sum64 "b" = some (.ok 2) ∧
      hm3.Get sum64 "c" = some (.ok 3) ∧
      List.Perm hm3.Keys ["a", "b", "c"] ∧ hm3.Keys.Nodup := by
  obtain ⟨hm0, n1, n2, n3, _, n5, n6, n7⟩ := newHashMap_spec Nat sum64 seed
    (show (1 : Int) ≤ 2 by decide)
  have hs0 : ∀ k, ¬ hm0.Stored k := by
    intro k
    unfold HashMap.Stored
    rw [n7]
    simp
  obtain ⟨hm1, a1, a2, a3, a4, a5, a6, a7⟩ := n2.set_new_key (hs0 "a") 1
  have l0 : hm0.loadFactorReached = false := by
    rw [loadFactorReached_of_fields n6 n3 n5]
    decide
  rw [l0] at a4
  rw [n6] at a5
  rw [n3] at a4
  have hb : ¬ hm1.Stored "b" := by
    rw [a7]
    rintro (hk | hk)
    · exact absurd hk (by decide)
    · exact hs0 _ hk
  obtain ⟨hm2, b1, b2, b3, b4, b5, b6, b7⟩ := a2.set_new_key hb 2
  have l1 : hm1.loadFactorReached = false := by
    rw [loadFactorReached_of_fields a5 a4 (a3.trans n5)]
    decide
  rw [l1, a4] at b4
  rw [a5] at b5
  have hc : ¬ hm2.Stored "c" := by
    rw [b7, a7]
    rintro (hk | hk | hk)
    · exact absurd hk (by decide)
    · exact absurd hk (by decide)
    · exact hs0 _ hk
  obtain ⟨hm3, c1, c2, c3, c4, c5, c6, c7⟩ := b2.set_new_key hc 3
  have l2 : hm2.loadFactorReached = true := by
    rw [loadFactorReached_of_fields b5 b4 (b3.trans (a3.trans n5))]
    decide
  rw [l2, b4] at c4
  rw [b5] at c5
  have hkeys : ∀ k, k ∈ hm3.Keys ↔ k ∈ ["a", "b", "c"] := by
    intro k
    rw [keys_eq_map_entries]
    show hm3.Stored k ↔ _
    rw [c7, b7, a7]
    simp only [List.mem_cons, List.mem_singleton, List.not_mem_nil, or_false]
    constructor
    · rintro (hk | hk | hk | hk)
      · exact Or.inr (Or.inr hk)
      · exact Or.inr (Or.inl hk)
      · exact Or.inl hk
      · exact absurd hk (hs0 k)
    · rintro (hk | hk | hk)
      · exact Or.inr (Or.inr (Or.inl hk))
      · exact Or.inr (Or.inl hk)
      · exact Or.inl hk
  have hnd : hm3.Keys.Nodup := by
    rw [keys_eq_map_entries]
    exact c2.1.2.2.2
  refine ⟨hm0, hm1, hm2, hm3, n1, a1, b1, c1, n3, a4, b4, by rw [c4]; rfl, by
    show hm3.elementCount = 3
    rw [c5]; rfl, ?_, ?_, ?_, ?_, hnd⟩
  · rw [c2.1.get_ok_iff, c6, b6, a6]
    exact Or.inr (Or.inr (Or.inl rfl))
  · rw [c2.1.get_ok_iff, c6, b6]
    exact Or.inr (Or.inl rfl)
  · rw [c2.1.get_ok_iff, c6]
    exact Or.inl rfl
  · exact (List.perm_ext_iff_of_nodup hnd (by decide)).2 hkeys

end scenario

section totality
variable {T : Type}

theorem HashMap.Shaped.store_isSome {hm : HashMap T} (h : hm.Shaped)
    (sum64 : Nat → String → Nat) (key : String) (value : T) :
    (hm.store sum64 key value).isSome = true := by
  obtain ⟨i, b, hi, _, hb⟩ := h.hash_index sum64 key
  simp only [HashMap.store, hi, hb, Option.bind_eq_bind, Option.some_bind]
  cases setValue key value b <;> rfl

/-- C15 (totality under valid inputs). For every table whose bucket array has
as many buckets as its capacity, the capacity being at least 1 (as is every
table reachable from `NewHashMap(c)`, `c ≥ 1`): the divisor of `hash` is not
zero and the index it returns is below the number of buckets, and `Set`,
`Put`, `Get`, `Delete`, `ContainsKey`, `resize` and `Clone` all return: with
option-valued indexing and a guarded remainder, no failure branch is
taken. -/
theorem operations_total (sum64 : Nat → String → Nat) (hm : HashMap T) (h : hm.Shaped) :
    uint64 hm.size ≠ 0 ∧
    (∀ key, ∃ i, hm.hash sum64 key = some i ∧ i < hm.buckets.length) ∧
    (∀ key value, (hm.Set sum64 key value).isSome = true) ∧
    (∀ key value, (hm.Put sum64 key value).isSome = true) ∧
    (∀ key, (hm.Get sum64 key).isSome = true) ∧
    (∀ key, (hm.Delete sum64 key).isSome = true) ∧
    (∀ key, (hm.ContainsKey sum64 key).isSome = true) ∧
    (hm.resize sum64).isSome = true ∧
    (∀ seed, (hm.Clone sum64 seed).isSome = true) ∧
    (∀ hm' : HashMap T, Reachable sum64 hm' → hm'.Shaped) := by
  refine ⟨?_, ?_, ?_, ?_, ?_, ?_, ?_, ?_, ?_, ?_⟩
  · have := h.1
    unfold uint64
    omega
  · intro key
    obtain ⟨i, b, hi, hlt, _⟩ := h.hash_index sum64 key
    exact ⟨i, hi, hlt⟩
  · intro key value
    have hset : hm.Set sum64 key value =
        (if hm.loadFactorReached then hm.resize sum64 else some hm).bind
          (fun hm => hm.store sum64 key value) := rfl
    rw [hset]
    by_cases hl : hm.loadFactorReached = true
    · obtain ⟨hm1, r1, r2, _, _, _, r6, _⟩ := resize_spec sum64 h.1
      have hs1 : hm1.Shaped := ⟨by have := h.1; omega, r6⟩
      rw [if_pos hl, r1, Option.some_bind]
      exact hs1.store_isSome sum64 key value
    · rw [if_neg hl, Option.some_bind]
      exact h.store_isSome sum64 key value
  · intro key value
    have h1 := h.store_isSome sum64 key value
    rw [← put_fst_eq_store] at h1
    cases hp : hm.Put sum64 key value with
    | none => rw [hp] at h1; cases h1
    | some p => rfl
  · intro key
    obtain ⟨i, b, hi, _, hb⟩ := h.hash_index sum64 key
    simp only [HashMap.Get, hi, hb, Option.bind_eq_bind, Option.some_bind]
    cases b.find? (fun kv => decide (key = kv.Key)) <;> rfl
  · intro key
    obtain ⟨i, b, hi, _, hb⟩ := h.hash_index sum64 key
    simp only [HashMap.Delete, hi, hb, Option.bind_eq_bind, Option.some_bind]
    cases deleteEntry key b <;> rfl
  · intro key
    obtain ⟨i, b, hi, _, hb⟩ := h.hash_index sum64 key
    simp only [HashMap.ContainsKey, hi, hb, Option.bind_eq_bind, Option.some_bind]
    rfl
  · obtain ⟨hm1, r1, _⟩ := resize_spec sum64 h.1
    rw [r1]
    rfl
  · intro seed
    obtain ⟨c0, n1, n2, _⟩ := newHashMap_spec T sum64 seed h.1
    obtain ⟨c1, k1, _⟩ := cloneAll_inv hm.buckets n2
    simp only [HashMap.Clone, n1, Option.bind_eq_bind, Option.some_bind, k1]
    rfl
  · intro hm' hr
    have hinv := reachable_inv hr
    exact ⟨hinv.1.1, hinv.1.2.1⟩

/-- Witness of C15: a table that is shaped but not well formed. -/
theorem operations_total_witness :
    misplacedTable.Shaped ∧ ¬ misplacedTable.WF exampleSum64 ∧
      (misplacedTable.Set exampleSum64 "a" 3).isSome = true ∧
      (misplacedTable.Delete exampleSum64 "zz").isSome = true :=
  ⟨by decide, by decide,
    (operations_total exampleSum64 misplacedTable (by decide)).2.2.1 "a" 3,
    (operations_total exampleSum64 misplacedTable (by decide)).2.2.2.2.2.1 "zz"⟩

end totality

/-! ## Stable removal -/

section removal
variable {T : Type} {sum64 : Nat → String → Nat}

theorem filter_key_ne_of_not_mem {key : String} {l : List (KeyValue T)}
    (h : key ∉ l.map (·.Key)) : l.filter (fun e => decide (e.Key ≠ key)) = l := by
  rw [List.filter_eq_self]
  intro e he
  exact decide_eq_true (fun hk => h (List.mem_map.2 ⟨e, he, hk⟩))

theorem filter_key_ne_eq_eraseIdx {key : String} {l : List (KeyValue T)}
    (hn : (l.map (·.Key)).Nodup) (hk : key ∈ l.map (·.Key)) :
    l.filter (fun e => decide (e.Key ≠ key)) = l.eraseIdx ((l.map (·.Key)).indexOf key) := by
  induction l with
  | nil => simp at hk
  | cons e rest ih =>
    rw [List.map_cons, List.nodup_cons] at hn
    by_cases he : e.Key = key
    · subst he
      rw [List.map_cons, List.indexOf_cons_self, List.eraseIdx_cons_zero, List.filter_cons]
      simp only [ne_eq, not_true_eq_false, decide_False, Bool.false_eq_true, if_false]
      exact filter_key_ne_of_not_mem hn.1
    · have hk' : key ∈ rest.map (·.Key) := by
        rw [List.map_cons, List.mem_cons] at hk
        rcases hk with hk | hk
        · exact absurd hk.symm he
        · exact hk
      rw [List.map_cons, List.indexOf_cons_ne _ he, List.eraseIdx_cons_succ, List.filter_cons,
        if_pos (decide_eq_true he), ih hn.2 hk']

theorem map_eraseIdx {α β : Type} (f : α → β) (l : List α) (i : Nat) :
    (l.eraseIdx i).map f = (l.map f).eraseIdx i := by
  induction l generalizing i with
  | nil => rfl
  | cons a rest ih =>
    cases i with
    | zero => rfl
    | succ i => simp only [List.eraseIdx_cons_succ, List.map_cons, ih]

theorem deleteEntry_eq_filter {key : String} {b b' : List (KeyValue T)}
    (hn : (b.map (·.Key)).Nodup) (h : deleteEntry key b = some b') :
    b' = b.filter (fun e => decide (e.Key ≠ key)) := by
  induction b generalizing b' with
  | nil => simp [deleteEntry] at h
  | cons kv rest ih =>
    rw [List.map_cons, List.nodup_cons] at hn
    by_cases hk : key = kv.Key
    · subst hk
      simp only [deleteEntry, if_true, Option.some.injEq] at h
      subst h
      rw [List.filter_cons]
      simp only [ne_eq, not_true_eq_false, decide_False, Bool.false_eq_true, if_false]
      exact (filter_key_ne_of_not_mem hn.1).symm
    · simp only [deleteEntry, hk, if_false, Option.map_eq_some'] at h
      obtain ⟨r, hr, rfl⟩ := h
      have hk' : kv.Key ≠ key := fun e => hk e.symm
      rw [List.filter_cons, if_pos (decide_eq_true hk'), ih hn.2 hr]

theorem flatten_set_filter {α : Type} (p : α → Bool) {L : List (List α)} {i : Nat} {b : List α}
    (h : L[i]? = some b)
    (hrest : ∀ (j : Nat) (c : List α), j ≠ i → L[j]? = some c → ∀ a ∈ c, p a = true) :
    (L.set i (b.filter p)).flatten = L.flatten.filter p := by
  induction L generalizing i with
  | nil => simp at h
  | cons c L ih =>
    cases i with
    | zero =>
      simp only [List.getElem?_cons_zero, Option.some.injEq] at h
      subst h
      have hL : L.flatten.filter p = L.flatten := by
        rw [List.filter_eq_self]
        intro a ha
        obtain ⟨j, d, hj, had⟩ := mem_flatten_iff_getElem?.1 ha
        exact hrest (j + 1) d (by omega) (by simpa using hj) a had
      rw [List.set_cons_zero, List.flatten_cons, List.flatten_cons, List.filter_append, hL]
    | succ i =>
      simp only [List.getElem?_cons_succ] at h
      have hc : c.filter p = c := by
        rw [List.filter_eq_self]
        exact hrest 0 c (by omega) (by simp)
      rw [List.set_cons_succ, List.flatten_cons, List.flatten_cons, List.filter_append, hc,
        ih h (fun j d hj hd => hrest (j + 1) d (by omega) (by simpa using hd))]

/-- The entries that `Delete` leaves are the old ones, in the same order,
without the entry of `key`. -/
theorem HashMap.WF.delete_entries {hm : HashMap T} (h : hm.WF sum64) {key : String}
    (hs : hm.Stored key) :
    ∃ hm', hm.Delete sum64 key = some (hm', .ok ()) ∧ hm'.size = hm.size ∧
      hm'.buckets.length = hm.buckets.length ∧
      hm'.entries = hm.entries.eraseIdx ((hm.entries.map (·.Key)).indexOf key) := by
  obtain ⟨i, b, hi, hb⟩ := h.hash_bucket key
  have hn := h.nodup_bucket hb
  have hst := h.stored_iff hi hb
  simp only [HashMap.Delete, hi, hb, Option.bind_eq_bind, Option.some_bind]
  cases hd : deleteEntry key b with
  | none => exact absurd (hst.1 hs) (deleteEntry_eq_none.1 hd)
  | some b' =>
    refine ⟨_, rfl, rfl, by simp, ?_⟩
    show (hm.buckets.set i b').flatten = _
    rw [deleteEntry_eq_filter hn hd, ← filter_key_ne_eq_eraseIdx h.2.2.2 hs]
    refine flatten_set_filter _ hb ?_
    intro j c hji hj e he
    refine decide_eq_true (fun hk => hji ?_)
    have h1 := h.placed hj he
    rw [hk, hi] at h1
    cases h1
    rfl

/-- C16 (stable removal). On a well-formed table that stores `k`, `Delete(k)`
removes the entry of `k` and nothing else: the entries are the old ones
without the one at the position of `k`, so `Keys()` is the old `Keys()` with
`k` erased, `Values()` the old `Values()` without the value at the position of
`k`, all others in the same order; the capacity and the number of buckets are
unchanged, and `Get(k')` returns what it returned before for every `k' ≠ k`. -/
theorem delete_stable (sum64 : Nat → String → Nat) (hm : HashMap T) (h : hm.WF sum64)
    (k : String) (hs : hm.Stored k) :
    ∃ hm', hm.Delete sum64 k = some (hm', .ok ()) ∧
      hm'.Keys = hm.Keys.erase k ∧
      hm'.Values = hm.Values.eraseIdx (hm.Keys.indexOf k) ∧
      hm'.buckets.flatten = hm.buckets.flatten.eraseIdx (hm.Keys.indexOf k) ∧
      hm'.size = hm.size ∧ hm'.buckets.length = hm.buckets.length ∧
      ∀ k', k' ≠ k → hm'.Get sum64 k' = hm.Get sum64 k' := by
  obtain ⟨hm', d1, d2, d3, d4⟩ := h.delete_entries hs
  obtain ⟨hm'', e1, e2, _, _, _, e6, _⟩ := h.delete_spec hs
  rw [d1] at e1
  simp only [Option.some.injEq, Prod.mk.injEq, and_true] at e1
  subst e1
  refine ⟨hm', d1, ?_, ?_, ?_, d2, d3, ?_⟩
  · rw [keys_eq_map_entries, keys_eq_map_entries, d4, map_eraseIdx,
      List.eraseIdx_indexOf_eq_erase]
  · rw [values_eq_map_entries, values_eq_map_entries, keys_eq_map_entries, d4, map_eraseIdx]
  · rw [keys_eq_map_entries]
    exact d4
  · intro k' hne
    refine (lookup_congr h e2 ?_).1
    intro e hk
    rw [e6 e]
    constructor
    · exact fun he => he.1
    · exact fun he => ⟨he, fun hk' => hne (hk.symm.trans hk')⟩

/-- Witness of C16. -/
theorem delete_stable_witness :
    sparseTable.WF exampleSum64 ∧ sparseTable.Stored "a" ∧
      ∃ hm', sparseTable.Delete exampleSum64 "a" = some (hm', .ok ()) ∧
        hm'.Keys = sparseTable.Keys.erase "a" ∧
        hm'.Values = sparseTable.Values.eraseIdx (sparseTable.Keys.indexOf "a") ∧
        hm'.buckets.flatten =
          sparseTable.buckets.flatten.eraseIdx (sparseTable.Keys.indexOf "a") ∧
        hm'.size = sparseTable.size ∧ hm'.buckets.length = sparseTable.buckets.length ∧
        ∀ k', k' ≠ "a" → hm'.Get exampleSum64 k' = sparseTable.Get exampleSum64 k' :=
  ⟨by decide, by decide, delete_stable exampleSum64 sparseTable (by decide) "a" (by decide)⟩

end removal

/-! ## Updates, other keys, clones -/

section updates
variable {T : Type}

/-- C17 (update-only resize). `Set` runs its load-factor check first and then
the statements that scan for the key, so the check does not depend on the key:
on a well-formed table and for a key `k` that is stored, `Set(k, v)` doubles
the capacity iff `float64(elementCount) / float64(size) >= threshold` before
the call (for the threshold 0.7, a count below `2 ^ 53` and a capacity below
`2 ^ 54 / 18`: iff `elementCount / size ≥ 0.7`), and `Len()` is unchanged. For
every hash function, `NewHashMap(1)`, `Set("a", 1)`, `Set("a", 2)` is a
reachable table and ends with capacity 2 and `Len()` 1. -/
theorem update_may_resize (sum64 : Nat → String → Nat) (hm : HashMap T) (h : hm.WF sum64)
    (k : String) (hk : hm.Stored k) (v : T) :
    hm.Set sum64 k v =
      (if hm.loadFactorReached then hm.resize sum64 else some hm).bind
        (fun hm => hm.store sum64 k v) ∧
    (∃ hm', hm.Set sum64 k v = some hm' ∧
      (hm'.size = 2 * hm.size ↔ hm.loadFactorReached = true) ∧
      (hm.loadFactorReached = false → hm'.size = hm.size) ∧
      hm'.Len = hm.Len ∧
      (hm.threshold = F64.c0_7 → 0 ≤ hm.elementCount → hm.elementCount < 2 ^ 53 →
        18 * hm.size < 2 ^ 54 →
        (hm'.size = 2 * hm.size ↔ 7 * hm.size ≤ 10 * hm.elementCount))) ∧
    (∀ seed, ∃ hm0 hm1 hm2 : HashMap Nat, NewHashMap seed 1 = some hm0 ∧
      hm0.Set sum64 "a" 1 = some hm1 ∧ hm1.Stored "a" ∧ Reachable sum64 hm1 ∧
      hm1.Set sum64 "a" 2 = some hm2 ∧ hm1.size = 1 ∧ hm2.size = 2 ∧ hm2.Len = 1) := by
  refine ⟨rfl, ?_, ?_⟩
  · obtain ⟨hm', s1, _, s3, _, _, _, s7, _⟩ := h.set_spec k v
    have hs0 := h.1
    have hiff : hm'.size = 2 * hm.size ↔ hm.loadFactorReached = true := by
      by_cases hl : hm.loadFactorReached = true
      · rw [if_pos hl] at s3
        exact ⟨fun _ => hl, fun _ => by omega⟩
      · rw [if_neg hl] at s3
        exact ⟨fun h2 => by omega, fun h2 => absurd h2 hl⟩
    refine ⟨hm', s1, hiff, ?_, ?_, ?_⟩
    · intro hl
      have hl' : ¬ hm.loadFactorReached = true := by simp [hl]
      rw [if_neg hl'] at s3
      exact s3
    · show hm'.elementCount = hm.elementCount
      rw [s7, if_pos hk]
      omega
    · intro ht he0 he hs
      rw [hiff, loadFactorReached_iff_exact ht he0 he hs0 hs]
  · intro seed
    obtain ⟨hm0, n1, n2, n3, _, n5, n6, n7⟩ := newHashMap_spec Nat sum64 seed
      (show (1 : Int) ≤ 1 by decide)
    have hs0 : ¬ hm0.Stored "a" := by
      unfold HashMap.Stored
      rw [n7]
      simp
    obtain ⟨hm1, a1, a2, a3, a4, a5, _, a7⟩ := n2.set_new_key hs0 1
    have l0 : hm0.loadFactorReached = false := by
      rw [loadFactorReached_of_fields n6 n3 n5]
      decide
    rw [l0, n3] at a4
    rw [n6] at a5
    have hst : hm1.Stored "a" := (a7 "a").2 (Or.inl rfl)
    obtain ⟨hm2, b1, _, b3, _, _, _, b7, _⟩ := a2.1.set_spec "a" 2
    have l1 : hm1.loadFactorReached = true := by
      rw [loadFactorReached_of_fields a5 a4 (a3.trans n5)]
      decide
    rw [l1, a4] at b3
    rw [if_pos hst, a5] at b7
    exact ⟨hm0, hm1, hm2, n1, a1, hst,
      Reachable.set hm0 "a" 1 hm1 (Reachable.new seed 1 hm0 (by decide) n1) a1, b1, a4,
      by rw [b3]; rfl, by show hm2.elementCount = 1; rw [b7]; rfl⟩

/-- Witness of C17 on a full table: the update doubles the capacity. -/
theorem update_may_resize_witness :
    fullTable.WF exampleSum64 ∧ fullTable.Stored "a" ∧ fullTable.loadFactorReached = true ∧
      ∃ hm', fullTable.Set exampleSum64 "a" 2 = some hm' ∧
        (hm'.size = 2 * fullTable.size ↔ fullTable.loadFactorReached = true) ∧
        (fullTable.loadFactorReached = false → hm'.size = fullTable.size) ∧
        hm'.Len = fullTable.Len ∧
        (fullTable.threshold = F64.c0_7 → 0 ≤ fullTable.elementCount →
          fullTable.elementCount < 2 ^ 53 → 18 * fullTable.size < 2 ^ 54 →
          (hm'.size = 2 * fullTable.size ↔ 7 * fullTable.size ≤ 10 * fullTable.elementCount)) :=
  ⟨by decide, by decide, by decide,
    (update_may_resize exampleSum64 fullTable (by decide) "a" (by decide) 2).2.1⟩

/-- C19 (other keys). For every hash function and seed, every well-formed table
and keys `k ≠ k'`: `Set(k, v)` returns, and `Get(k')` and `ContainsKey(k')`
return on the table it leaves what they returned before, whether or not the
call rehashed the table into a doubled bucket array; the same holds for
`Put(k, v)`; and `Len()` grows by 1 when `k` was not stored and by 0 when it
was. -/
theorem set_put_frame (sum64 : Nat → String → Nat) (hm : HashMap T) (h : hm.WF sum64)
    (k k' : String) (hne : k ≠ k') (v : T) :
    (∃ hm', hm.Set sum64 k v = some hm' ∧
      hm'.size = (if hm.loadFactorReached then hm.size * 2 else hm.size) ∧
      hm'.Get sum64 k' = hm.Get sum64 k' ∧
      hm'.ContainsKey sum64 k' = hm.ContainsKey sum64 k' ∧
      hm'.Len = hm.Len + (if hm.Stored k then 0 else 1)) ∧
    (∃ hm' r, hm.Put sum64 k v = some (hm', .ok r) ∧
      hm'.Get sum64 k' = hm.Get sum64 k' ∧
      hm'.ContainsKey sum64 k' = hm.ContainsKey sum64 k' ∧
      hm'.Len = hm.Len + (if hm.Stored k then 0 else 1)) := by
  have hframe : ∀ hm' : HashMap T,
      (∀ e, e ∈ hm'.entries ↔ e = { Key := k, Value := v } ∨ (e ∈ hm.entries ∧ e.Key ≠ k)) →
      ∀ e : KeyValue T, e.Key = k' → (e ∈ hm'.entries ↔ e ∈ hm.entries) := by
    intro hm' hmem e hk
    rw [hmem e]
    constructor
    · rintro (rfl | ⟨he, _⟩)
      · exact absurd hk hne
      · exact he
    · exact fun he => Or.inr ⟨he, fun hk' => hne (hk'.symm.trans hk)⟩
  refine ⟨?_, ?_⟩
  · obtain ⟨hm', s1, s2, s3, _, _, s6, s7, _⟩ := h.set_spec k v
    obtain ⟨g1, g2⟩ := lookup_congr h s2 (hframe hm' s6)
    exact ⟨hm', s1, s3, g1, g2, s7⟩
  · obtain ⟨hm', r, p1, p2, _⟩ := h.put_spec k v
    obtain ⟨hm'', s1, s2, _, _, _, s6, s7, _⟩ := h.store_spec k v
    rw [p2] at s1
    cases s1
    obtain ⟨g1, g2⟩ := lookup_congr h s2 (hframe hm' s6)
    exact ⟨hm', r, p1, g1, g2, s7⟩

/-- Witness of C19 on a full table: `Set` rehashes, `Put` does not. -/
theorem set_put_frame_witness :
    fullTable.WF exampleSum64 ∧ "bb" ≠ "a" ∧
      (∃ hm', fullTable.Set exampleSum64 "bb" 2 = some hm' ∧
        hm'.size = (if fullTable.loadFactorReached then fullTable.size * 2 else fullTable.size) ∧
        hm'.Get exampleSum64 "a" = fullTable.Get exampleSum64 "a" ∧
        hm'.ContainsKey exampleSum64 "a" = fullTable.ContainsKey exampleSum64 "a" ∧
        hm'.Len = fullTable.Len + (if fullTable.Stored "bb" then 0 else 1)) ∧
      (∃ hm' r, fullTable.Put exampleSum64 "bb" 2 = some (hm', .ok r) ∧
        hm'.Get exampleSum64 "a" = fullTable.Get exampleSum64 "a" ∧
        hm'.ContainsKey exampleSum64 "a" = fullTable.ContainsKey exampleSum64 "a" ∧
        hm'.Len = fullTable.Len + (if fullTable.Stored "bb" then 0 else 1)) :=
  ⟨by decide, by decide, set_put_frame exampleSum64 fullTable (by decide) "bb" "a" (by decide) 2⟩

end updates

/-! ## The capacity of a clone -/

section clonecapacity
variable {T : Type}

theorem hash_of_size_one (sum64 : Nat → String → Nat) {hm : HashMap T} (hs : hm.size = 1)
    (key : String) : hm.hash sum64 key = some 0 := by
  simp [HashMap.hash, bucketIndex, uint64, hs, Nat.mod_one]

/-- C18 (Clone may resize). `Clone` makes a table with the capacity of the
source and calls `Set` on it for every entry of the source, in bucket order.
For every hash function, the table `NewHashMap(1)`, `Put("a", 1)`,
`Put("b", 2)`, `Put("c", 3)` is reachable and has capacity 1, and its clone
has capacity 4, strictly more than the source. -/
theorem clone_may_resize (sum64 : Nat → String → Nat) (seed : Nat) :
    (∀ hm : HashMap T, hm.Clone sum64 seed =
      (NewHashMap seed hm.size).bind (fun clone => cloneBucket sum64 hm.buckets.flatten clone)) ∧
    (∃ hm0 hm1 hm2 : HashMap Nat, NewHashMap 0 1 = some hm0 ∧
      hm0.Put sum64 "a" 1 = some (hm1, .ok 1) ∧ hm1.Put sum64 "b" 2 = some (hm2, .ok 2) ∧
      hm2.Put sum64 "c" 3 = some (crowdedTable, .ok 3)) ∧
    Reachable sum64 crowdedTable ∧ crowdedTable.size = 1 ∧
    ∃ clone, crowdedTable.Clone sum64 seed = some clone ∧ clone.size = 4 ∧
      crowdedTable.size < clone.size := by
  have hclone : ∀ {U : Type} (hm : HashMap U), hm.Clone sum64 seed =
      (NewHashMap seed hm.size).bind
        (fun clone => cloneBucket sum64 hm.buckets.flatten clone) := by
    intro U hm
    unfold HashMap.Clone
    cases NewHashMap seed hm.size with
    | none => rfl
    | some c => exact cloneAll_eq_cloneBucket hm.buckets c
  have p0 : (NewHashMap 0 1 : Option (HashMap Nat)) = some ⟨[[]], 1, F64.c0_7, 0, 0⟩ := by
    decide
  have p1 : (⟨[[]], 1, F64.c0_7, 0, 0⟩ : HashMap Nat).Put sum64 "a" 1 =
      some (⟨[[⟨"a", 1⟩]], 1, F64.c0_7, 0, 1⟩, .ok 1) := by
    have hi := @hash_of_size_one Nat sum64 ⟨[[]], 1, F64.c0_7, 0, 0⟩ rfl "a"
    simp only [HashMap.Put, hi, Option.bind_eq_bind, Option.some_bind]
    rfl
  have p2 : (⟨[[⟨"a", 1⟩]], 1, F64.c0_7, 0, 1⟩ : HashMap Nat).Put sum64 "b" 2 =
      some (⟨[[⟨"a", 1⟩, ⟨"b", 2⟩]], 1, F64.c0_7, 0, 2⟩, .ok 2) := by
    have hi := @hash_of_size_one Nat sum64 ⟨[[⟨"a", 1⟩]], 1, F64.c0_7, 0, 1⟩ rfl "b"
    simp only [HashMap.Put, hi, Option.bind_eq_bind, Option.some_bind]
    rfl
  have p3 : (⟨[[⟨"a", 1⟩, ⟨"b", 2⟩]], 1, F64.c0_7, 0, 2⟩ : HashMap Nat).Put sum64 "c" 3 =
      some (crowdedTable, .ok 3) := by
    have hi := @hash_of_size_one Nat sum64 ⟨[[⟨"a", 1⟩, ⟨"b", 2⟩]], 1, F64.c0_7, 0, 2⟩ rfl "c"
    simp only [HashMap.Put, hi, Option.bind_eq_bind, Option.some_bind]
    rfl
  have hreach : Reachable sum64 crowdedTable :=
    Reachable.put _ "c" 3 _ _
      (Reachable.put _ "b" 2 _ _
        (Reachable.put _ "a" 1 _ _ (Reachable.new 0 1 _ (by decide) p0) p1) p2) p3
  refine ⟨fun hm => hclone hm, ⟨_, _, _, p0, p1, p2, p3⟩, hreach, rfl, ?_⟩
  obtain ⟨c0, n1, n2, n3, _, n5, n6, n7⟩ := newHashMap_spec Nat sum64 seed
    (show (1 : Int) ≤ 1 by decide)
  have hs0 : ∀ k, ¬ c0.Stored k := by
    intro k
    unfold HashMap.Stored
    rw [n7]
    simp
  obtain ⟨c1, a1, a2, a3, a4, a5, _, a7⟩ := n2.set_new_key (hs0 "a") 1
  have l0 : c0.loadFactorReached = false := by
    rw [loadFactorReached_of_fields n6 n3 n5]
    decide
  rw [l0, n3] at a4
  rw [n6] at a5
  have hb : ¬ c1.Stored "b" := by
    rw [a7]
    rintro (hk | hk)
    · exact absurd hk (by decide)
    · exact hs0 _ hk
  obtain ⟨c2, b1, b2, b3, b4, b5, _, b7⟩ := a2.set_new_key hb 2
  have l1 : c1.loadFactorReached = true := by
    rw [loadFactorReached_of_fields a5 a4 (a3.trans n5)]
    decide
  rw [l1, a4] at b4
  rw [a5] at b5
  have hc : ¬ c2.Stored "c" := by
    rw [b7, a7]
    rintro (hk | hk | hk)
    · exact absurd hk (by decide)
    · exact absurd hk (by decide)
    · exact hs0 _ hk
  obtain ⟨c3, d1, _, _, d4, _⟩ := b2.set_new_key hc 3
  have l2 : c2.loadFactorReached = true := by
    rw [loadFactorReached_of_fields b5 b4 (b3.trans (a3.trans n5))]
    decide
  rw [l2, b4] at d4
  have hsize : c3.size = 4 := by rw [d4]; rfl
  refine ⟨c3, ?_, hsize, ?_⟩
  · rw [hclone crowdedTable]
    show (NewHashMap seed 1).bind _ = _
    rw [n1, Option.some_bind]
    show cloneBucket sum64 [⟨"a", 1⟩, ⟨"b", 2⟩, ⟨"c", 3⟩] c0 = some c3
    simp only [cloneBucket, a1, b1, d1, Option.bind_eq_bind, Option.some_bind]
  · rw [hsize]
    decide

/-- The invariant of the tables on which `Put` was never called. -/
theorem noPut_invariant {sum64 : Nat → String → Nat} {hm : HashMap T}
    (hr : ReachableNoPut sum64 hm) :
    hm.Inv sum64 ∧ hm.threshold = F64.c0_7 ∧
      (hm.size < 2 ^ 53 → 10 * (hm.elementCount - 1) < 7 * hm.size) := by
  induction hr with
  | new seed c hm hc hnew =>
    obtain ⟨hm0, h1, h2, _, _, h5, h6, _⟩ := newHashMap_spec T sum64 seed hc
    rw [hnew] at h1
    cases h1
    refine ⟨h2, h5, fun _ => ?_⟩
    have := h2.1.1
    rw [h6]
    omega
  | set hm key value hm' _ hset ih =>
    obtain ⟨hm1, s1, s2, s3, s4, _⟩ := set_keeps_load ih.1 ih.2.1 ih.2.2 key value
    rw [hset] at s1
    cases s1
    exact ⟨s2, s3, s4⟩
  | delete hm key hm' r _ hdel ih =>
    by_cases hs : hm.Stored key
    · obtain ⟨hm1, d1, d2, d3, _, d5, _, d7, d8⟩ := ih.1.1.delete_spec hs
      rw [hdel] at d1
      cases d1
      refine ⟨⟨d2, by rw [d7, d8, ih.1.2]⟩, d5.trans ih.2.1, fun hlt => ?_⟩
      have := ih.2.2 (by omega)
      omega
    · rw [ih.1.1.delete_of_not_stored hs] at hdel
      cases hdel
      exact ih
  | clear hm _ ih =>
    refine ⟨ih.1.clear_inv, ih.2.1, fun _ => ?_⟩
    have := ih.1.1.1
    show 10 * ((0 : Int) - 1) < 7 * hm.size
    omega

/-- The `Set` calls of `Clone` keep the capacity when the load factor stays
below the threshold until the last of them. -/
theorem cloneBucket_keeps_size (sum64 : Nat → String → Nat) (l : List (KeyValue T))
    {clone : HashMap T} (h : clone.Inv sum64) (ht : clone.threshold = F64.c0_7)
    (hs : 18 * clone.size < 2 ^ 54) (hn : (l.map (·.Key)).Nodup)
    (hnew : ∀ k ∈ l.map (·.Key), ¬ clone.Stored k)
    (hload : 10 * (clone.elementCount + l.length - 1) < 7 * clone.size) :
    ∃ clone', cloneBucket sum64 l clone = some clone' ∧ clone'.size = clone.size := by
  induction l generalizing clone with
  | nil => exact ⟨clone, rfl, rfl⟩
  | cons kv rest ih =>
    rw [List.map_cons, List.nodup_cons] at hn
    have hk : ¬ clone.Stored kv.Key := hnew kv.Key (by simp)
    obtain ⟨c1, s1, s2, s3, s4, s5, _, s7⟩ := h.set_new_key hk kv.Value
    have he0 : 0 ≤ clone.elementCount := by
      rw [h.2]
      exact Int.natCast_nonneg _
    simp only [List.length_cons, Nat.cast_add, Nat.cast_one] at hload
    have hlen : (0 : Int) ≤ rest.length := Int.natCast_nonneg _
    have hl : ¬ clone.loadFactorReached = true := by
      rw [loadFactorReached_iff_exact ht he0 (by omega) h.1.1 hs]
      omega
    rw [if_neg hl] at s4
    obtain ⟨c2, k1, k2⟩ := ih s2 (s3.trans ht) (by rw [s4]; exact hs) hn.2
      (by
        intro k hkr
        rw [s7]
        rintro (rfl | hst)
        · exact hn.1 hkr
        · exact hnew k (by simp [List.mem_map.1 hkr]) hst)
      (by rw [s4, s5]; omega)
    exact ⟨c2, by simp only [cloneBucket, s1, Option.bind_eq_bind, Option.some_bind, k1],
      k2.trans s4⟩

/-- C20 (Clone keeps the capacity when Put was never used). For every table
reachable from `NewHashMap(c)`, `c ≥ 1`, through `Set`, `Delete` and `Clear`
only, with a capacity below `2 ^ 54 / 18` (where the `float64` test of `Set` is
the exact comparison `10 * elementCount ≥ 7 * capacity`): `elementCount = 0` or
`10 * (elementCount - 1) < 7 * capacity`, and `Clone()` returns a table whose
capacity is the capacity of the source, no `Set` call of the clone having
resized. -/
theorem clone_keeps_capacity (sum64 : Nat → String → Nat) (hm : HashMap T)
    (hr : ReachableNoPut sum64 hm) (hs : 18 * hm.size < 2 ^ 54) :
    (hm.elementCount = 0 ∨ 10 * (hm.elementCount - 1) < 7 * hm.size) ∧
    ∀ seed, ∃ clone, hm.Clone sum64 seed = some clone ∧ clone.size = hm.size := by
  obtain ⟨hinv, _, hj⟩ := noPut_invariant hr
  have hj' := hj (by omega)
  refine ⟨Or.inr hj', ?_⟩
  intro seed
  obtain ⟨c0, n1, n2, n3, _, n5, n6, n7⟩ := newHashMap_spec T sum64 seed hinv.1.1
  have hlen : (hm.entries.length : Int) = hm.elementCount := by
    rw [hinv.2]
    exact congrArg Nat.cast (length_flatten_eq_sum hm.buckets)
  obtain ⟨c1, k1, k2⟩ := cloneBucket_keeps_size sum64 hm.entries n2 n5
    (by rw [n3]; exact hs) hinv.1.2.2.2
    (by
      intro k _
      unfold HashMap.Stored
      rw [n7]
      simp)
    (by rw [n6, n3, hlen]; omega)
  refine ⟨c1, ?_, k2.trans n3⟩
  simp only [HashMap.Clone, n1, Option.bind_eq_bind, Option.some_bind, cloneAll_eq_cloneBucket]
  exact k1

/-- Witness of C20: `NewHashMap(1)` followed by `Set("a", 1)`. -/
theorem clone_keeps_capacity_witness :
    ReachableNoPut exampleSum64 fullTable ∧ 18 * fullTable.size < 2 ^ 54 ∧
      (fullTable.elementCount = 0 ∨ 10 * (fullTable.elementCount - 1) < 7 * fullTable.size) ∧
      ∀ seed, ∃ clone, fullTable.Clone exampleSum64 seed = some clone ∧
        clone.size = fullTable.size :=
  ⟨ReachableNoPut.set ⟨[[]], 1, F64.c0_7, 0, 0⟩ "a" 1 fullTable
      (ReachableNoPut.new 0 1 _ (by decide) (by decide)) (by decide),
    by decide,
    clone_keeps_capacity exampleSum64 fullTable
      (ReachableNoPut.set ⟨[[]], 1, F64.c0_7, 0, 0⟩ "a" 1 fullTable
        (ReachableNoPut.new 0 1 _ (by decide) (by decide)) (by decide))
      (by decide)⟩

end clonecapacity

end hashmap
